import Mathlib

/-!
Shallow embedding of the retrievall chunk/atom retrieval core
(`core.py`, `filters.py`, `exprs.py`, `chunkers.py`).

Tables are modelled as Lean lists of rows.  Polars/pyarrow relational
operations (inner join, left join, group-by with `maintain_order`,
column masks, stable sorts) are modelled as deterministic,
order-preserving list transformations.  Fallible Python code
(`KeyError`, `ValueError`, the engine's `ColumnNotFoundError`, the
`TypeError` raised by `re.findall(None)`) is modelled with `Except`.
-/

namespace Retrievall

/-- Error kinds raised by the embedded code.
`keyError` models Python `KeyError` (dict lookup misses and the eager
schema checks in the chunkers, which raise `KeyError` naming the
missing column); `valueError` models `ValueError` (the stringifier
schema checks and invalid configuration); `columnNotFound` models the
table engine's `ColumnNotFoundError` raised when a pipeline touches a
column the atom table does not have; `typeError` models `TypeError`. -/
inductive Err where
  | keyError (name : String)
  | valueError (name : String)
  | columnNotFound (name : String)
  | typeError
deriving DecidableEq, Repr

instance {ε α : Type} [DecidableEq ε] [DecidableEq α] : DecidableEq (Except ε α) :=
  fun a b =>
    match a, b with
    | .error e, .error f =>
      if h : e = f then isTrue (by rw [h])
      else isFalse (by intro hc; cases hc; exact h rfl)
    | .error _, .ok _ => isFalse (by intro hc; cases hc)
    | .ok _, .error _ => isFalse (by intro hc; cases hc)
    | .ok x, .ok y =>
      if h : x = y then isTrue (by rw [h])
      else isFalse (by intro hc; cases hc; exact h rfl)

/-! ## Generic relational combinators -/

/-- Deduplicate, keeping the first occurrence of each key (the order in
which `group_by(..., maintain_order=True)` lists its groups).  `seen`
accumulates keys already emitted. -/
def dedupFirstAux {κ : Type} [DecidableEq κ] : List κ → List κ → List κ
  | [], _ => []
  | k :: rest, seen =>
    if k ∈ seen then dedupFirstAux rest seen
    else k :: dedupFirstAux rest (k :: seen)

def dedupFirst {κ : Type} [DecidableEq κ] (l : List κ) : List κ :=
  dedupFirstAux l []

/-- Group a keyed list of rows: one group per distinct key, groups in
first-appearance order, each group holding its rows in input order.
This is the semantics of a `group_by` whose observable order is the
order of first appearance (`maintain_order=True`); pipelines that
group without `maintain_order` re-key against the original order
afterwards, so this deterministic choice is observationally faithful
there as well. -/
def groupByKey {κ α : Type} [DecidableEq κ] (l : List (κ × α)) : List (κ × List α) :=
  (dedupFirst (l.map Prod.fst)).map
    (fun k => (k, (l.filter (fun p => p.1 = k)).map Prod.snd))

/-- Apply a boolean mask to rows, keeping rows whose mask entry is
`true` (pyarrow `Table.filter`). -/
def filterByMask {α : Type} (rows : List α) (mask : List Bool) : List α :=
  (rows.zip mask).filterMap (fun p => if p.2 then some p.1 else none)

/-! ## Data model (`core.py`) -/

/-- One row of a corpus' atom table.  `id` is the required unique id;
`ordinal` and `text` model the conventional columns (their contents
are meaningful only when the table's schema flags say the column is
present); `attrs` models any further domain-defined columns. -/
structure Atom where
  id : Nat
  ordinal : Int
  text : String
  attrs : List (String × Int)
deriving DecidableEq, Repr

/-- The atom table: schema flags for the two conventional columns plus
the rows.  `"x" in table.schema.names` is modelled by the flags. -/
structure AtomTable where
  hasOrdinal : Bool
  hasText : Bool
  rows : List Atom
deriving DecidableEq, Repr

/-- One row of a `Chunks.chunks` table: the required unique `id`
column plus any attribute columns. -/
structure ChunkRow where
  id : Nat
  attrs : List (String × Int)
deriving DecidableEq, Repr

/-- The two tables of a `Chunks` value: the chunk-attribute table and
the normalized `(chunk, atom)` membership table. -/
structure ChunksData where
  chunks : List ChunkRow
  chunk_atoms : List (Nat × Nat)
deriving DecidableEq, Repr

/-- A corpus: the atom table plus the registry `name -> Chunks`.
The registry entry stores only the two tables; the Python back
reference `Chunks.corpus` is represented by the `Chunks` wrapper
below. -/
structure Corpus where
  atoms : AtomTable
  registry : List (String × ChunksData)
deriving DecidableEq, Repr

/-- A `Chunks` value: its owning corpus plus its two tables. -/
structure Chunks where
  corpus : Corpus
  data : ChunksData
deriving DecidableEq, Repr

/-- `Corpus.chunk(name)` for a string argument: registry lookup,
`KeyError` when the name is not registered. -/
def Corpus.chunkByName (c : Corpus) (name : String) : Except Err ChunksData :=
  match c.registry.lookup name with
  | some d => .ok d
  | none => .error (.keyError name)

/-- The per-name body of `merge`'s loop: ask *every* input corpus for
the name (`corp.chunk(k)`, a `KeyError` when missing) and concatenate
the resulting `chunks`/`chunk_atoms` tables. -/
def mergeStep (corpora : List Corpus) (k : String) :
    Except Err (String × ChunksData) := do
  let ds ← corpora.mapM (fun c => c.chunkByName k)
  pure (k, (⟨ds.flatMap (fun d => d.chunks),
             ds.flatMap (fun d => d.chunk_atoms)⟩ : ChunksData))

/-- `Corpus.merge`: collect the distinct chunk names across all input
corpora, concatenate the atom tables, and run `mergeStep` for every
name; a name missing from any input raises `KeyError`.  Merging an
empty collection fails (`pa.concat_tables` requires at least one
table). -/
def Corpus.mergeM (corpora : List Corpus) : Except Err Corpus := do
  let keys := dedupFirst (corpora.flatMap (fun c => c.registry.map Prod.fst))
  match corpora with
  | [] => .error (.valueError "concat_tables")
  | c0 :: _ =>
    let atoms : AtomTable :=
      ⟨c0.atoms.hasOrdinal, c0.atoms.hasText, corpora.flatMap (fun c => c.atoms.rows)⟩
    let reg ← keys.mapM (mergeStep corpora)
    pure ⟨atoms, reg⟩

/-! ## Chunk filters (`filters.py`) -/

/-- Look an attribute column value up on a chunk row. -/
def ChunkRow.attr (r : ChunkRow) (name : String) : Option Int :=
  r.attrs.lookup name

/-- Materialize the attribute column `chunks.chunks[attr]`; a missing
column is a `KeyError`. -/
def attrVals (name : String) (rows : List ChunkRow) : Except Err (List Int) :=
  rows.mapM (fun r =>
    match r.attr name with
    | some v => .ok v
    | none => .error (.keyError name))

/-- The valid `Threshold` directions. -/
inductive Dir where
  | gt | ge | lt | le
deriving DecidableEq, Repr

/-- The pyarrow comparison kernel selected by `Threshold.direction`. -/
def Dir.test : Dir → Int → Int → Bool
  | .gt, v, t => v > t
  | .ge, v, t => v ≥ t
  | .lt, v, t => v < t
  | .le, v, t => v ≤ t

/-- `Threshold.__call__`: compute the comparison mask over the
attribute column and filter the `chunks` table by it, passing
`chunk_atoms` and the corpus through unchanged. -/
def thresholdCall (name : String) (d : Dir) (threshold : Int) (ch : Chunks) :
    Except Err Chunks := do
  let values ← attrVals name ch.data.chunks
  let mask := values.map (fun v => d.test v threshold)
  pure ⟨ch.corpus, ⟨filterByMask ch.data.chunks mask, ch.data.chunk_atoms⟩⟩

/-- `EqualTo.__call__`: `is_in` membership mask over the attribute
column, then filter the `chunks` table by it. -/
def equalToCall (name : String) (values : List Int) (ch : Chunks) :
    Except Err Chunks := do
  let col ← attrVals name ch.data.chunks
  let mask := col.map (fun v => values.contains v)
  pure ⟨ch.corpus, ⟨filterByMask ch.data.chunks mask, ch.data.chunk_atoms⟩⟩

/-- The documented contract of `pa.compute.select_k_unstable` applied
to the column `values` with `k` and sort direction `descending`
(`descending = true` unless `TopK.reverse`): the output is a list of
`min k n` distinct in-bounds indices, ordered by their values in the
requested direction, whose values dominate every unselected value.
The kernel is explicitly *unstable*: among equal values no particular
choice or order is promised, so the kernel is modelled as a relation
rather than a function. -/
def alongOrdered (descending : Bool) (values : List Int) : List Nat → Bool
  | [] => true
  | [_] => true
  | i :: j :: rest =>
    (if descending then decide (values.getD j 0 ≤ values.getD i 0)
     else decide (values.getD i 0 ≤ values.getD j 0)) &&
    alongOrdered descending values (j :: rest)

def SelectKSpec (values : List Int) (k : Nat) (descending : Bool)
    (idxs : List Nat) : Prop :=
  idxs.length = min k values.length ∧
  idxs.Nodup ∧
  (∀ i ∈ idxs, i < values.length) ∧
  alongOrdered descending values idxs = true ∧
  (∀ i ∈ idxs, ∀ j ∈ List.range values.length, j ∉ idxs →
    if descending then values.getD j 0 ≤ values.getD i 0
    else values.getD i 0 ≤ values.getD j 0)

instance (values : List Int) (k : Nat) (descending : Bool) (idxs : List Nat) :
    Decidable (SelectKSpec values k descending idxs) :=
  inferInstanceAs (Decidable (idxs.length = min k values.length ∧
    idxs.Nodup ∧
    (∀ i ∈ idxs, i < values.length) ∧
    alongOrdered descending values idxs = true ∧
    (∀ i ∈ idxs, ∀ j ∈ List.range values.length, j ∉ idxs →
      if descending then values.getD j 0 ≤ values.getD i 0
      else values.getD i 0 ≤ values.getD j 0)))

/-- `TopK.__call__` as a relation between its input and its possible
outputs: some kernel output `idxs` satisfying the `select_k_unstable`
contract is taken from the `chunks` table (`Table.take`), while
`chunk_atoms` and the corpus pass through unchanged. -/
def TopKRel (name : String) (k : Nat) (reverse : Bool)
    (cin cout : Chunks) : Prop :=
  ∃ values idxs,
    attrVals name cin.data.chunks = .ok values ∧
    SelectKSpec values k (!reverse) idxs ∧
    cout = ⟨cin.corpus,
      ⟨idxs.filterMap (fun i => cin.data.chunks[i]?), cin.data.chunk_atoms⟩⟩

/-! ## Attribute expressions (`exprs.py`) -/

/-- `AtomData.__call__` joined rows: start from the `chunks` table (to
set the order), inner-join `chunk_atoms` on the chunk id, inner-join
the corpus' atom table on the atom id, and carry the requested atom
attribute.  Inner joins are modelled as order-preserving nested
loops. -/
def atomDataRows (attrName : String) (ch : Chunks) : List (Nat × Option Int) :=
  ch.data.chunks.flatMap (fun r =>
    (ch.data.chunk_atoms.filter (fun ca => ca.1 = r.id)).flatMap (fun ca =>
      (ch.corpus.atoms.rows.filter (fun a => a.id = ca.2)).map
        (fun a => (r.id, a.attrs.lookup attrName))))

/-- `AtomData.__call__`: group the joined rows by chunk
(`maintain_order=True`) and aggregate the attribute into a list per
group.  Note there is no re-join against the original chunk ids: the
output has one entry per chunk *present in the joined rows*. -/
def atomData (attrName : String) (ch : Chunks) : List (List (Option Int)) :=
  (groupByKey (atomDataRows attrName ch)).map Prod.snd

/-- The three `ChunkOverlap` aggregation modes. -/
inductive Agg where
  | bool | count | frac
deriving DecidableEq, Repr

/-- An aggregated overlap value (`any`, `sum`, `mean` over the
is-not-null flags of a group). -/
inductive AggVal where
  | b (v : Bool)
  | n (v : Nat)
  | q (v : Rat)
deriving DecidableEq, Repr

/-- Apply a `ChunkOverlap` aggregation to a group's is-not-null
flags. -/
def aggApply : Agg → List Bool → AggVal
  | .bool, fs => .b (fs.any id)
  | .count, fs => .n (fs.count true)
  | .frac, fs => .q ((fs.count true : Rat) / (fs.length : Rat))

/-- The left-join expansion of one `chunk_a` membership row against
`chunk_b`'s membership table, keyed by the `chunk_a` id and carrying
whether the joined `chunk_b` id is non-null: no match keeps the row
with a null (`false`), and an atom that belongs to several `chunk_b`
chunks yields several rows, as a relational left join does. -/
def overlapExpand (bAtoms : List (Nat × Nat)) (ca : Nat × Nat) : List (Nat × Bool) :=
  let l := bAtoms.filter (fun cb => cb.2 = ca.2)
  if l.isEmpty then [(ca.1, false)] else l.map (fun _ => (ca.1, true))

/-- `ChunkOverlap.__call__` joined rows: left-join `chunk_a`'s
membership table with `chunk_b`'s on the atom id. -/
def overlapRows (bAtoms aAtoms : List (Nat × Nat)) : List (Nat × Bool) :=
  aAtoms.flatMap (overlapExpand bAtoms)

/-- `ChunkOverlap.__call__`: resolve `chunk_b` from the corpus, left
join on atoms, group by the `chunk_a` id (`maintain_order=True`) and
aggregate.  Groups follow the first-appearance order of chunk ids in
`chunk_atoms`; chunks with no membership rows produce no group. -/
def chunkOverlap (chunk_b : String) (agg : Agg) (ch : Chunks) :
    Except Err (List AggVal) := do
  let b ← ch.corpus.chunkByName chunk_b
  pure ((groupByKey (overlapRows b.chunk_atoms ch.data.chunk_atoms)).map
    (fun g => aggApply agg g.2))

/-- `RegexCount.__call__`: the stringifier's output is materialized to
a Python list and `len(re.findall(pattern, text, flags))` is applied
to each entry.  The regex engine is external; it is abstracted as the
`counter` function.  A null string (`None`) makes `re.findall` raise
`TypeError`. -/
def regexCount (counter : String → Nat) (strings : List (Option String)) :
    Except Err (List Nat) :=
  strings.mapM (fun s =>
    match s with
    | some t => .ok (counter t)
    | none => .error .typeError)

/-- The atoms of one chunk: membership rows for the chunk id,
inner-joined with the atom table. -/
def ssChunkAtoms (ch : Chunks) (cid : Nat) : List Atom :=
  (ch.data.chunk_atoms.filter (fun ca => ca.1 = cid)).flatMap (fun ca =>
    ch.corpus.atoms.rows.filter (fun a => a.id = ca.2))

/-- `SimpleStringify`'s per-group aggregation: texts sorted by
`ordinal` (stable sort), joined with the delimiter. -/
def ssAgg (delim : String) (atoms : List Atom) : String :=
  String.intercalate delim
    ((atoms.insertionSort (fun a b => a.ordinal ≤ b.ordinal)).map (fun a => a.text))

/-- `SimpleStringify.__call__` joined rows, keyed by chunk id. -/
def ssJoined (ch : Chunks) : List (Nat × Atom) :=
  ch.data.chunks.flatMap (fun r =>
    (ch.data.chunk_atoms.filter (fun ca => ca.1 = r.id)).flatMap (fun ca =>
      (ch.corpus.atoms.rows.filter (fun a => a.id = ca.2)).map (fun a => (r.id, a))))

/-- `SimpleStringify.__call__`: check the `text` and `ordinal` columns
(`ValueError` naming the missing one), inner-join chunks, membership
and atoms, group by chunk and aggregate, then *left-join back* against
the input chunk ids, so the output is aligned with the input row order
and a chunk with no joined atoms gets a null. -/
def simpleStringify (delim : String) (ch : Chunks) :
    Except Err (List (Option String)) :=
  if !ch.corpus.atoms.hasText then .error (.valueError "text")
  else if !ch.corpus.atoms.hasOrdinal then .error (.valueError "ordinal")
  else
    let grouped := (groupByKey (ssJoined ch)).map (fun g => (g.1, ssAgg delim g.2))
    .ok (ch.data.chunks.map (fun r => grouped.lookup r.id))

/-- One row of `ChunkDelimitedStringify`'s enriched frame: the member
atom id (null for a chunk with no members), the atom's `ordinal` and
`text` columns (null when the membership row matched no atom row), and
one tag per configured `(chunk_name, delimiter)` pair — the id of the
chunk of that type containing the atom, null when there is none. -/
structure CdsRow where
  atomId : Option Nat
  ordinal : Option Int
  text : Option String
  tags : List (Option Nat)
deriving DecidableEq, Repr

/-- The left join of one membership row against the atom table: the
atom's `ordinal`/`text` when its row exists, nulls otherwise. -/
def cdsAtomJoin (ch : Chunks) (ca : Nat × Nat) : List CdsRow :=
  let l := ch.corpus.atoms.rows.filter (fun a => a.id = ca.2)
  if l.isEmpty then [⟨some ca.2, none, none, []⟩]
  else l.map (fun a => ⟨some ca.2, some a.ordinal, some a.text, []⟩)

/-- The base enriched rows for one chunk id: left-join the membership
table (a chunk with no members keeps one all-null row), then left-join
the atom table on the atom id. -/
def cdsBaseRows (ch : Chunks) (cid : Nat) : List CdsRow :=
  let mems := ch.data.chunk_atoms.filter (fun ca => ca.1 = cid)
  if mems.isEmpty then [⟨none, none, none, []⟩]
  else mems.flatMap (cdsAtomJoin ch)

/-- The left-join expansion of one enriched row against a configured
chunk type's membership table, appending the resulting chunk id tag:
a null atom id matches nothing (joins do not match nulls), an atom in
no chunk of the type gets a null tag, and an atom in several chunks of
the type duplicates the row. -/
def cdsTagExpand (bca : List (Nat × Nat)) (kr : Nat × CdsRow) : List (Nat × CdsRow) :=
  match kr.2.atomId with
  | none => [(kr.1, { kr.2 with tags := kr.2.tags ++ [none] })]
  | some a =>
    let l := bca.filter (fun cb => cb.2 = a)
    if l.isEmpty then [(kr.1, { kr.2 with tags := kr.2.tags ++ [none] })]
    else l.map (fun cb => (kr.1, { kr.2 with tags := kr.2.tags ++ [some cb.1] }))

/-- One step of the per-delimiter enrichment loop: left-join the named
chunk type's membership table on the atom id. -/
def cdsAddTag (bca : List (Nat × Nat)) (rows : List (Nat × CdsRow)) :
    List (Nat × CdsRow) :=
  rows.flatMap (cdsTagExpand bca)

/-- `ChunkDelimitedStringify`'s full enriched frame: the base rows for
every chunk row (keyed by chunk id, in `chunks` row order), with the
tag joins folded over the configured chunk types in list order. -/
def cdsEnriched (ch : Chunks) (bcas : List (List (Nat × Nat))) :
    List (Nat × CdsRow) :=
  bcas.foldl (fun rows bca => cdsAddTag bca rows)
    (ch.data.chunks.flatMap (fun r =>
      (cdsBaseRows ch r.id).map (fun x => (r.id, x))))

/-- Null-propagating inequality test of the `when` conditions: the
condition `col.ne(col.shift(-1))` is null (hence not taken) when
either side is null. -/
def tagNe : Option Nat → Option Nat → Bool
  | some x, some y => x ≠ y
  | _, _ => false

/-- The chained `when/then` expression: scan the configured delimiters
in list order paired with the row's and the next row's tags; the first
pair whose tag differs (both non-null) supplies the delimiter; failing
that, the last row of the group gets `""` and every other row gets the
atom delimiter. -/
def pickDelim : List (String × Option Nat × Option Nat) → Bool → String → String
  | [], isLast, ad => if isLast then "" else ad
  | (d, tc, tn) :: rest, isLast, ad =>
    if tagNe tc tn then d else pickDelim rest isLast ad

/-- The delimiter attached to a row, given the next row of the group
in *frame order* (`shift(-1)` is null past the end of the group). -/
def cdsRowDelim (delimStrs : List String) (ad : String)
    (cur : CdsRow) (next : Option CdsRow) (isLast : Bool) : String :=
  let nextTags := match next with
    | none => List.replicate delimStrs.length (none : Option Nat)
    | some r => r.tags
  pickDelim (delimStrs.zip (cur.tags.zip nextTags)) isLast ad

/-- `concat_str(text, expr)` evaluated over a group in frame order:
each row yields its text concatenated with its delimiter (null when
the text is null); the group's last row gets `""` instead of a
delimiter.  Each item also carries the row's `ordinal` for the
subsequent sort. -/
def cdsItems (delimStrs : List String) (ad : String) :
    List CdsRow → List (Option Int × Option String)
  | [] => []
  | [r] => [(r.ordinal, r.text.map
      (fun t => t ++ cdsRowDelim delimStrs ad r none true))]
  | r :: r2 :: rest =>
    (r.ordinal, r.text.map
      (fun t => t ++ cdsRowDelim delimStrs ad r (some r2) false)) ::
    cdsItems delimStrs ad (r2 :: rest)

/-- Sort order used by `sort_by("ordinal")`: nulls first (the polars
default), then by value; the sort is stable. -/
def nullsFirstLe (a b : Option Int) : Bool :=
  match a, b with
  | none, _ => true
  | some _, none => false
  | some x, some y => x ≤ y

/-- The aggregation of one group: build the per-row
text-plus-delimiter items, sort them by `ordinal` (stable, nulls
first) and join them with `""`, skipping nulls (`str.join` ignores
nulls). -/
def cdsGroupString (delimStrs : List String) (ad : String)
    (rows : List CdsRow) : String :=
  String.join
    (((cdsItems delimStrs ad rows).insertionSort
        (fun a b => nullsFirstLe a.1 b.1)).filterMap Prod.snd)

/-- `ChunkDelimitedStringify.__call__`: resolve each configured chunk
type from the corpus (`KeyError` when unregistered), fail with the
engine's column error if the atom table lacks `text` or `ordinal`
(there is no eager schema check in this operator), then group the
enriched frame by chunk id (`maintain_order=True`) and aggregate each
group to its string. -/
def cdsCall (delims : List (String × String)) (ad : String) (ch : Chunks) :
    Except Err (List String) := do
  let bcas ← delims.mapM (fun p => (ch.corpus.chunkByName p.1).map (·.chunk_atoms))
  if !ch.corpus.atoms.hasText then .error (.columnNotFound "text")
  else if !ch.corpus.atoms.hasOrdinal then .error (.columnNotFound "ordinal")
  else
    pure ((groupByKey (cdsEnriched ch bcas)).map
      (fun g => cdsGroupString (delims.map Prod.snd) ad g.2))

/-! ## Chunk expressions (`chunkers.py`) -/

/-- Lexicographic order on the joined `(constraint, atom)` rows used
by `sort(["constraint", "ordinal"])`. -/
def constraintOrdLe (a b : Nat × Atom) : Prop :=
  a.1 < b.1 ∨ (a.1 = b.1 ∧ a.2.ordinal ≤ b.2.ordinal)

instance : DecidableRel constraintOrdLe := fun a b => by
  unfold constraintOrdLe; infer_instance

/-- The joined frame shared by both chunkers: the bounding chunk's
membership table, inner-joined with the atom table on the atom id. -/
def boundJoined (bd : ChunksData) (c : Corpus) : List (Nat × Atom) :=
  bd.chunk_atoms.flatMap (fun ca =>
    (c.atoms.rows.filter (fun a => a.id = ca.2)).map (fun a => (ca.1, a)))

/-- An injective stand-in for the 64-bit struct hash that derives a
chunk id from `(bounding chunk id, window start ordinal)`. -/
def hashFsc (g : Nat) (start : Int) : Nat :=
  Nat.pair g (Encodable.encode start)

/-- An injective stand-in for the 64-bit struct hash that derives a
chunk id from `(bounding chunk id, match start, match end)`. -/
def hashRmc (g : Nat) (sp : Nat × Nat) : Nat :=
  Nat.pair g (Nat.pair sp.1 sp.2)

/-- The four `closed` modes of `group_by_dynamic`. -/
inductive Closed where
  | left | right | both | neither
deriving DecidableEq, Repr

/-- Whether an ordinal falls inside the window starting at `b` of
width `period`, under the given closure mode. -/
def inWindow (closed : Closed) (b period o : Int) : Bool :=
  match closed with
  | .left => decide (b ≤ o ∧ o < b + period)
  | .right => decide (b < o ∧ o ≤ b + period)
  | .both => decide (b ≤ o ∧ o ≤ b + period)
  | .neither => decide (b < o ∧ o < b + period)

/-- The window start boundaries generated by `group_by_dynamic` with
`start_by="datapoint"`: from the group's first data point `lo`,
advancing by `every`, while the boundary does not pass the group's
last data point `hi`. -/
def windowStarts (every lo hi : Int) : List Int :=
  (List.range (((hi - lo) / every).toNat + 1)).map
    (fun k : Nat => lo + (k : Int) * every)

/-- The chunks emitted for one bounding-chunk group: one chunk per
non-empty window, carrying the member atom ids in the group's (sorted)
row order, with the content-addressed id. -/
def fscGroupChunks (size offset : Int) (closed : Closed)
    (g : Nat) (atoms : List Atom) : List (Nat × List Nat) :=
  match atoms with
  | [] => []
  | a0 :: _ =>
    let lo := a0.ordinal
    let hi := (atoms.getLastD a0).ordinal
    (windowStarts (size + offset) lo hi).filterMap (fun b =>
      let members := atoms.filter (fun a => inWindow closed b size a.ordinal)
      if members.isEmpty then none
      else some (hashFsc g b, members.map (fun a => a.id)))

/-- `FixedSizeChunk.__call__`: eagerly require the `ordinal` column
(`KeyError` naming it), resolve the bounding chunk collection, join
with atom data, sort by `(constraint, ordinal)`, and window each
bounding-chunk group independently (`every = size + offset`,
`period = size`, the configured closure, starting at the group's first
data point).  `group_by_dynamic` requires a positive `every`.  The
resulting `chunks` table has only the hashed `id` column; the member
lists are exploded into `chunk_atoms`. -/
def fixedSizeChunk (constraint : String) (size offset : Int) (closed : Closed)
    (c : Corpus) : Except Err Chunks := do
  if !c.atoms.hasOrdinal then throw (.keyError "ordinal")
  let bd ← c.chunkByName constraint
  let joined := boundJoined bd c
  if size + offset ≤ 0 then throw (.valueError "every")
  let sorted := joined.insertionSort constraintOrdLe
  let emitted := (groupByKey sorted).flatMap (fun g =>
    fscGroupChunks size offset closed g.1 g.2)
  pure ⟨c, ⟨emitted.map (fun e => ⟨e.1, []⟩),
    emitted.flatMap (fun e => e.2.map (fun a => (e.1, a)))⟩⟩

/-- The spacer-joined search string of one bounding-chunk group. -/
def rmcSearchString (atoms : List Atom) : String :=
  String.intercalate " " (atoms.map (fun a => a.text))

/-- Each atom's starting character offset within the group's search
string: the cumulative length of all preceding atoms' text plus one
spacer each (`cum_sum` of `len + 1`, shifted by one with fill 0). -/
def startOffsets : List Atom → Nat → List (Nat × Nat)
  | [], _ => []
  | a :: rest, acc => (a.id, acc) :: startOffsets rest (acc + a.text.length + 1)

/-- `RegexMatchChunk.__call__`: eagerly require `ordinal` (`KeyError`
naming it); the `text` column has no eager check and its absence
surfaces as the engine's column error once the pipeline touches it.
For each bounding-chunk group (sorted by `(constraint, ordinal)`),
join the atoms' text into a search string, run the external regex
engine (abstracted as `matcher`, returning the non-overlapping match
spans in order), and for each match keep the atoms whose start offset
lies in the closed interval `[start, end]`; each surviving
`(group, span)` becomes one chunk with the content-addressed id.
Groups of the final `group_by` carry their member atoms; a match with
no qualifying atom contributes no group. -/
def regexMatchChunk (matcher : String → List (Nat × Nat)) (constraint : String)
    (c : Corpus) : Except Err Chunks := do
  if !c.atoms.hasOrdinal then throw (.keyError "ordinal")
  let bd ← c.chunkByName constraint
  if !c.atoms.hasText then throw (.columnNotFound "text")
  let sorted := (boundJoined bd c).insertionSort constraintOrdLe
  let rows := (groupByKey sorted).flatMap (fun g =>
    let idx := startOffsets g.2 0
    (matcher (rmcSearchString g.2)).flatMap (fun sp =>
      (idx.filter (fun p => sp.1 ≤ p.2 ∧ p.2 ≤ sp.2)).map
        (fun p => (hashRmc g.1 sp, p.1))))
  let grouped := groupByKey rows
  pure ⟨c, ⟨grouped.map (fun e => ⟨e.1, []⟩),
    grouped.flatMap (fun e => e.2.map (fun a => (e.1, a)))⟩⟩

/-! ## Lemmas about the relational combinators -/

theorem mem_dedupFirstAux {κ : Type} [DecidableEq κ] (l : List κ) :
    ∀ seen a, a ∈ dedupFirstAux l seen ↔ a ∈ l ∧ a ∉ seen := by
  induction l with
  | nil => intro seen a; simp [dedupFirstAux]
  | cons k rest ih =>
    intro seen a
    simp only [dedupFirstAux]
    by_cases hk : k ∈ seen
    · rw [if_pos hk, ih seen a]
      constructor
      · rintro ⟨h1, h2⟩
        exact ⟨List.mem_cons_of_mem k h1, h2⟩
      · rintro ⟨h1, h2⟩
        rcases List.mem_cons.mp h1 with he | hm
        · exact absurd (he ▸ hk) h2
        · exact ⟨hm, h2⟩
    · rw [if_neg hk]
      constructor
      · intro h
        rcases List.mem_cons.mp h with he | hm
        · subst he; exact ⟨List.mem_cons_self a rest, hk⟩
        · obtain ⟨h1, h2⟩ := (ih (k :: seen) a).mp hm
          exact ⟨List.mem_cons_of_mem k h1, fun hs => h2 (List.mem_cons_of_mem k hs)⟩
      · rintro ⟨h1, h2⟩
        by_cases hak : a = k
        · subst hak; exact List.mem_cons_self a _
        · rcases List.mem_cons.mp h1 with he | hm
          · exact absurd he hak
          · refine List.mem_cons_of_mem k ((ih (k :: seen) a).mpr ⟨hm, ?_⟩)
            intro hs
            rcases List.mem_cons.mp hs with he2 | hs2
            · exact hak he2
            · exact h2 hs2

theorem mem_dedupFirst {κ : Type} [DecidableEq κ] (l : List κ) (a : κ) :
    a ∈ dedupFirst l ↔ a ∈ l := by
  rw [dedupFirst, mem_dedupFirstAux]
  simp

theorem nodup_dedupFirstAux {κ : Type} [DecidableEq κ] (l : List κ) :
    ∀ seen, (dedupFirstAux l seen).Nodup := by
  induction l with
  | nil => simp [dedupFirstAux]
  | cons k rest ih =>
    intro seen
    simp only [dedupFirstAux]
    by_cases hk : k ∈ seen
    · rw [if_pos hk]; exact ih seen
    · rw [if_neg hk]
      refine List.nodup_cons.mpr ⟨?_, ih (k :: seen)⟩
      rw [mem_dedupFirstAux]
      rintro ⟨-, h2⟩
      exact h2 (List.mem_cons_self k seen)

theorem nodup_dedupFirst {κ : Type} [DecidableEq κ] (l : List κ) :
    (dedupFirst l).Nodup :=
  nodup_dedupFirstAux l []

theorem lookup_map_keyFun {κ β : Type} [DecidableEq κ] (keys : List κ)
    (f : κ → β) (k : κ) :
    (keys.map (fun x => (x, f x))).lookup k =
      if k ∈ keys then some (f k) else none := by
  induction keys with
  | nil => simp [List.lookup]
  | cons x rest ih =>
    simp only [List.map_cons, List.lookup]
    by_cases hx : k = x
    · subst hx; simp
    · have hbeq : (k == x) = false := beq_eq_false_iff_ne.mpr hx
      simp only [hbeq, ih, List.mem_cons]
      by_cases hm : k ∈ rest
      · rw [if_pos hm, if_pos (Or.inr hm)]
      · rw [if_neg hm, if_neg (by rintro (h | h); exacts [hx h, hm h])]

theorem lookup_map_snd {κ β γ : Type} [DecidableEq κ] (l : List (κ × β))
    (h : β → γ) (k : κ) :
    (l.map (fun p => (p.1, h p.2))).lookup k = (l.lookup k).map h := by
  induction l with
  | nil => simp [List.lookup]
  | cons p rest ih =>
    simp only [List.map_cons, List.lookup]
    by_cases hx : k = p.1
    · have hbeq : (k == p.1) = true := beq_iff_eq.mpr hx
      simp only [hbeq, Option.map]
    · have hbeq : (k == p.1) = false := beq_eq_false_iff_ne.mpr hx
      simp only [hbeq, ih]

theorem lookup_groupByKey {κ β : Type} [DecidableEq κ] (l : List (κ × β)) (k : κ) :
    (groupByKey l).lookup k =
      if k ∈ l.map Prod.fst then
        some ((l.filter (fun p => p.1 = k)).map Prod.snd)
      else none := by
  unfold groupByKey
  rw [lookup_map_keyFun]
  by_cases h : k ∈ l.map Prod.fst
  · rw [if_pos ((mem_dedupFirst _ _).mpr h), if_pos h]
  · rw [if_neg (fun hc => h ((mem_dedupFirst _ _).mp hc)), if_neg h]

/-- Every group of `groupByKey` holds at least its key's first row. -/
theorem groupByKey_val_ne_nil {κ β : Type} [DecidableEq κ] (l : List (κ × β))
    {k : κ} {vs : List β} (h : (k, vs) ∈ groupByKey l) : vs ≠ [] := by
  unfold groupByKey at h
  obtain ⟨k2, hk2, heq⟩ := List.mem_map.mp h
  have h1 : k2 = k := congrArg Prod.fst heq
  subst h1
  have h2 : vs = (l.filter (fun p => p.1 = k2)).map Prod.snd :=
    (congrArg Prod.snd heq).symm
  have hmem : k2 ∈ l.map Prod.fst := (mem_dedupFirst _ _).mp hk2
  obtain ⟨p, hp, hpk⟩ := List.mem_map.mp hmem
  intro hnil
  rw [h2, List.map_eq_nil_iff, List.filter_eq_nil_iff] at hnil
  exact hnil p hp (by simp [hpk])

/-- Membership in the rows re-flattened from `groupByKey` coincides
with membership in the original keyed rows. -/
theorem mem_flatten_groupByKey {κ β : Type} [DecidableEq κ] (l : List (κ × β))
    (k : κ) (b : β) :
    (k, b) ∈ (groupByKey l).flatMap (fun g => g.2.map (fun v => (g.1, v))) ↔
      (k, b) ∈ l := by
  simp only [List.mem_flatMap, List.mem_map]
  constructor
  · rintro ⟨⟨k2, vs⟩, hg, v, hv, heq⟩
    have h1 : k2 = k := congrArg Prod.fst heq
    have h2 : v = b := congrArg Prod.snd heq
    subst h1; subst h2
    unfold groupByKey at hg
    obtain ⟨k3, _, heq3⟩ := List.mem_map.mp hg
    have h3 : k3 = k2 := congrArg Prod.fst heq3
    subst h3
    have h4 : vs = (l.filter (fun p => p.1 = k3)).map Prod.snd :=
      (congrArg Prod.snd heq3).symm
    rw [h4] at hv
    obtain ⟨p, hp, hpeq⟩ := List.mem_map.mp hv
    have hp1 : p.1 = k3 := of_decide_eq_true (List.mem_filter.mp hp).2
    obtain ⟨pa, pb⟩ := p
    simp only at hp1 hpeq
    subst hp1; subst hpeq
    exact (List.mem_filter.mp hp).1
  · intro hmem
    refine ⟨(k, (l.filter (fun p => p.1 = k)).map Prod.snd), ?_, b, ?_, rfl⟩
    · unfold groupByKey
      refine List.mem_map.mpr ⟨k, ?_, rfl⟩
      rw [mem_dedupFirst]
      exact List.mem_map.mpr ⟨(k, b), hmem, rfl⟩
    · exact List.mem_map.mpr ⟨(k, b), List.mem_filter.mpr ⟨hmem, by simp⟩, rfl⟩

/-- Filtering keyed rows built block-by-block commutes with filtering
the block sources, when each block's rows carry its source's key. -/
theorem filter_key_flatMap {α κ β : Type} [DecidableEq κ] (l : List α)
    (G : α → List (κ × β)) (key : α → κ)
    (hG : ∀ x ∈ l, ∀ p ∈ G x, p.1 = key x) (c : κ) :
    (l.flatMap G).filter (fun p => p.1 = c) =
      (l.filter (fun x => key x = c)).flatMap G := by
  induction l with
  | nil => simp
  | cons x rest ih =>
    have hx := hG x (List.mem_cons_self x rest)
    have hrest : ∀ y ∈ rest, ∀ p ∈ G y, p.1 = key y :=
      fun y hy => hG y (List.mem_cons_of_mem x hy)
    simp only [List.flatMap_cons, List.filter_append, List.filter_cons]
    by_cases hc : key x = c
    · have hfull : (G x).filter (fun p => p.1 = c) = G x :=
        List.filter_eq_self.mpr (fun p hp => by simp [hx p hp, hc])
      rw [hfull, ih hrest, if_pos (by simp [hc])]
      simp
    · have hnil : (G x).filter (fun p => p.1 = c) = [] := by
        rw [List.filter_eq_nil_iff]
        intro p hp
        simp [hx p hp, hc]
      rw [hnil, ih hrest, if_neg (by simp [hc])]
      simp

/-- A run of identical keys contributes its key once to the
first-occurrence deduplication, exactly as a single copy would. -/
theorem dedupFirstAux_const_run {κ : Type} [DecidableEq κ] (run : List κ) (k : κ)
    (hrun : ∀ x ∈ run, x = k) (hne : run ≠ []) :
    ∀ rest seen, dedupFirstAux (run ++ rest) seen = dedupFirstAux (k :: rest) seen := by
  induction run with
  | nil => exact absurd rfl hne
  | cons x run2 ih =>
    intro rest seen
    have hx : x = k := hrun x (List.mem_cons_self x run2)
    subst hx
    by_cases hrun2 : run2 = []
    · subst hrun2; simp
    · have hrun2k := fun y hy => hrun y (List.mem_cons_of_mem x hy)
      show dedupFirstAux (x :: (run2 ++ rest)) seen = dedupFirstAux (x :: rest) seen
      simp only [dedupFirstAux]
      by_cases hk : x ∈ seen
      · rw [if_pos hk, if_pos hk]
        exact (ih hrun2k hrun2 rest seen).trans
          (by simp only [dedupFirstAux, if_pos hk])
      · rw [if_neg hk, if_neg hk]
        exact congrArg (x :: ·) ((ih hrun2k hrun2 rest (x :: seen)).trans
          (by simp only [dedupFirstAux, if_pos (List.mem_cons_self x seen)]))

/-- First-occurrence deduplication over rows built from non-empty
per-source blocks of constant key equals deduplication over the block
keys themselves. -/
theorem dedupFirstAux_flatMap_blocks {α κ : Type} [DecidableEq κ] (l : List α)
    (G : α → List κ) (key : α → κ)
    (hk : ∀ x ∈ l, ∀ c ∈ G x, c = key x) (hne : ∀ x ∈ l, G x ≠ []) :
    ∀ seen, dedupFirstAux (l.flatMap G) seen = dedupFirstAux (l.map key) seen := by
  induction l with
  | nil => simp
  | cons x rest ih =>
    intro seen
    have hkx := hk x (List.mem_cons_self x rest)
    have hkrest : ∀ y ∈ rest, ∀ c ∈ G y, c = key y :=
      fun y hy => hk y (List.mem_cons_of_mem x hy)
    have hnerest : ∀ y ∈ rest, G y ≠ [] := fun y hy => hne y (List.mem_cons_of_mem x hy)
    rw [List.flatMap_cons,
      dedupFirstAux_const_run (G x) (key x) hkx (hne x (List.mem_cons_self x rest))]
    simp only [List.map_cons, dedupFirstAux]
    by_cases hks : key x ∈ seen
    · rw [if_pos hks, if_pos hks, ih hkrest hnerest]
    · rw [if_neg hks, if_neg hks, ih hkrest hnerest]

/-- Deduplication is the identity on a list of pairwise-distinct
elements none of which was already seen. -/
theorem dedupFirstAux_eq_self {κ : Type} [DecidableEq κ] (l : List κ) (h : l.Nodup) :
    ∀ seen, (∀ x ∈ l, x ∉ seen) → dedupFirstAux l seen = l := by
  induction l with
  | nil => intro seen _; rfl
  | cons k rest ih =>
    intro seen hseen
    obtain ⟨hk, hrest⟩ := List.nodup_cons.mp h
    simp only [dedupFirstAux, if_neg (hseen k (List.mem_cons_self k rest))]
    rw [ih hrest (k :: seen) (by
      intro x hx
      simp only [List.mem_cons]
      rintro (he | hs)
      · exact hk (he ▸ hx)
      · exact hseen x (List.mem_cons_of_mem k hx) hs)]

/-- With pairwise-distinct keys, filtering down to one member's key
leaves exactly that member. -/
theorem filter_key_eq_singleton {α κ : Type} [DecidableEq κ] (l : List α)
    (key : α → κ) (hkeys : (l.map key).Nodup) (x : α) (hx : x ∈ l) :
    l.filter (fun y => key y = key x) = [x] := by
  induction l with
  | nil => exact absurd hx (List.not_mem_nil x)
  | cons z rest ih =>
    simp only [List.map_cons, List.nodup_cons] at hkeys
    rcases List.mem_cons.mp hx with hzx | hxr
    · subst hzx
      rw [List.filter_cons_of_pos (by simp)]
      have : rest.filter (fun y => key y = key x) = [] := by
        rw [List.filter_eq_nil_iff]
        intro y hy hcontra
        exact hkeys.1 (List.mem_map.mpr ⟨y, hy, of_decide_eq_true hcontra⟩)
      rw [this]
    · have hkzx : ¬(key z = key x) := by
        intro he
        exact hkeys.1 (he ▸ List.mem_map.mpr ⟨x, hxr, rfl⟩)
      rw [List.filter_cons_of_neg (by simpa using hkzx)]
      exact ih hkeys.2 hxr

theorem dedupFirst_flatMap_blocks {α κ : Type} [DecidableEq κ] (l : List α)
    (G : α → List κ) (key : α → κ)
    (hk : ∀ x ∈ l, ∀ c ∈ G x, c = key x) (hne : ∀ x ∈ l, G x ≠ []) :
    dedupFirst (l.flatMap G) = dedupFirst (l.map key) :=
  dedupFirstAux_flatMap_blocks l G key hk hne []

/-- Grouping rows built from non-empty constant-key blocks with
pairwise-distinct keys recovers exactly one group per source, in
source order. -/
theorem groupByKey_flatMap_blocks {α κ β : Type} [DecidableEq κ] (l : List α)
    (G : α → List (κ × β)) (key : α → κ)
    (hkeys : (l.map key).Nodup)
    (hG : ∀ x ∈ l, ∀ p ∈ G x, p.1 = key x)
    (hne : ∀ x ∈ l, G x ≠ []) :
    groupByKey (l.flatMap G) = l.map (fun x => (key x, (G x).map Prod.snd)) := by
  unfold groupByKey dedupFirst
  have hded : dedupFirstAux ((l.flatMap G).map Prod.fst) [] = dedupFirstAux (l.map key) [] := by
    rw [List.map_flatMap]
    exact dedupFirstAux_flatMap_blocks l (fun x => (G x).map Prod.fst) key
      (by
        intro x hx c hc
        obtain ⟨p, hp, hpe⟩ := List.mem_map.mp hc
        exact hpe ▸ hG x hx p hp)
      (by
        intro x hx
        simp only [ne_eq, List.map_eq_nil_iff]
        exact hne x hx) []
  rw [hded, dedupFirstAux_eq_self (l.map key) hkeys [] (by simp), List.map_map]
  refine List.map_congr_left ?_
  intro x hx
  simp only [Function.comp_apply, Prod.mk.injEq, true_and]
  rw [filter_key_flatMap l G key hG (key x),
    filter_key_eq_singleton l key hkeys x hx]
  simp

/-! ## Lemmas about `Except` pipelines and masks -/

theorem mapM_eq_ok_map {α β ε : Type} (f : α → Except ε β) (g : α → β) (l : List α)
    (h : ∀ x ∈ l, f x = .ok (g x)) : l.mapM f = .ok (l.map g) := by
  induction l with
  | nil => rfl
  | cons x rest ih =>
    rw [List.mapM_cons, h x (List.mem_cons_self x rest),
      ih (fun y hy => h y (List.mem_cons_of_mem x hy))]
    rfl

theorem mapM_ok_forall2 {α β ε : Type} (f : α → Except ε β) (l : List α) :
    ∀ (ys : List β), l.mapM f = .ok ys →
      List.Forall₂ (fun x y => f x = .ok y) l ys := by
  induction l with
  | nil =>
    intro ys h
    have : ys = [] := by
      rw [List.mapM_nil] at h
      exact (Except.ok.injEq .. ▸ h.symm : _)
    subst this
    exact .nil
  | cons x rest ih =>
    intro ys h
    rw [List.mapM_cons] at h
    cases hx : f x with
    | error e =>
      rw [hx] at h
      simp only [Bind.bind, Except.bind] at h
      exact Except.noConfusion h
    | ok y =>
      rw [hx] at h
      cases hrest : rest.mapM f with
      | error e =>
        rw [hrest] at h
        simp only [Bind.bind, Except.bind] at h
        exact Except.noConfusion h
      | ok ys2 =>
        rw [hrest] at h
        simp only [Bind.bind, Except.bind, pure, Except.pure, Except.ok.injEq] at h
        subst h
        exact .cons hx (ih ys2 hrest)

theorem filterByMask_map {α : Type} (rows : List α) (p : α → Bool) :
    filterByMask rows (rows.map p) = rows.filter p := by
  induction rows with
  | nil => rfl
  | cons x xs ih =>
    simp only [filterByMask, List.map_cons, List.zip_cons_cons, List.filterMap_cons,
      List.filter_cons] at *
    by_cases hp : p x
    · rw [if_pos hp, if_pos hp, ih]
    · rw [if_neg hp, if_neg hp, ih]

theorem filterByMask_sublist {α : Type} :
    ∀ (rows : List α) (mask : List Bool), (filterByMask rows mask).Sublist rows := by
  intro rows
  induction rows with
  | nil => intro mask; simp [filterByMask]
  | cons x xs ih =>
    intro mask
    cases mask with
    | nil => simp [filterByMask]
    | cons m ms =>
      simp only [filterByMask, List.zip_cons_cons, List.filterMap_cons]
      by_cases hm : m
      · subst hm
        exact List.Sublist.cons₂ x (ih ms)
      · have : m = false := Bool.eq_false_iff.mpr hm
        subst this
        exact List.Sublist.cons x (ih ms)

/-! ## Example corpus used by witnesses and counterexamples -/

/-- A miniature corpus in the shape of the repository's OCR fixture:
three atoms with `text`, `ordinal` and a `conf` attribute. -/
def exAtoms : AtomTable :=
  ⟨true, true,
    [⟨1, 1, "The", [("conf", 96)]⟩,
     ⟨2, 2, "quick", [("conf", 95)]⟩,
     ⟨3, 3, "fox", [("conf", 94)]⟩]⟩

/-- Two "line" chunks with a `width` attribute. -/
def exLineData : ChunksData :=
  ⟨[⟨101, [("width", 110)]⟩, ⟨102, [("width", 200)]⟩],
   [(101, 1), (101, 2), (102, 3)]⟩

/-- One "document" chunk holding all atoms. -/
def exDocData : ChunksData :=
  ⟨[⟨301, []⟩], [(301, 1), (301, 2), (301, 3)]⟩

def exCorpus : Corpus :=
  ⟨exAtoms, [("line", exLineData), ("document", exDocData)]⟩

def exLineChunks : Chunks := ⟨exCorpus, exLineData⟩

/-- A chunk collection over `exCorpus` whose second chunk has no
member atoms. -/
def exEmptyData : ChunksData :=
  ⟨[⟨101, []⟩, ⟨999, []⟩], [(101, 1), (101, 2)]⟩

def exEmptyChunks : Chunks := ⟨exCorpus, exEmptyData⟩

/-! ## C10 — Threshold and EqualTo keep surviving rows in input order -/

/-- **C10.** `Threshold` and `EqualTo` preserve the relative order of
surviving rows: when every row carries the attribute, the output
`chunks` table is exactly the subsequence of input rows whose
attribute value satisfies the predicate (the comparison for
`Threshold`, membership in the value collection for `EqualTo`), in the
input's row order. -/
theorem c10_threshold_equalTo_preserve_order
    (ch : Chunks) (name : String) (d : Dir) (t : Int) (vs : List Int)
    (h : ∀ r ∈ ch.data.chunks, (r.attr name).isSome = true) :
    thresholdCall name d t ch = .ok ⟨ch.corpus,
      ⟨ch.data.chunks.filter
        (fun r => ((r.attr name).map (fun v => d.test v t)).getD false),
       ch.data.chunk_atoms⟩⟩ ∧
    equalToCall name vs ch = .ok ⟨ch.corpus,
      ⟨ch.data.chunks.filter
        (fun r => ((r.attr name).map (fun v => vs.contains v)).getD false),
       ch.data.chunk_atoms⟩⟩ := by
  have hvals : attrVals name ch.data.chunks =
      .ok (ch.data.chunks.map (fun r => (r.attr name).getD 0)) := by
    refine mapM_eq_ok_map _ _ _ ?_
    intro r hr
    obtain ⟨v, hv⟩ := Option.isSome_iff_exists.mp (h r hr)
    simp [attrVals, hv]
  constructor
  · show (do
      let values ← attrVals name ch.data.chunks
      let mask := values.map (fun v => d.test v t)
      pure (⟨ch.corpus, ⟨filterByMask ch.data.chunks mask, ch.data.chunk_atoms⟩⟩ : Chunks))
      = _
    rw [hvals]
    show Except.ok (⟨ch.corpus, ⟨filterByMask ch.data.chunks
      ((ch.data.chunks.map (fun r => (r.attr name).getD 0)).map (fun v => d.test v t)),
      ch.data.chunk_atoms⟩⟩ : Chunks) = _
    rw [List.map_map, filterByMask_map]
    congr 3
    refine List.filter_congr ?_
    intro r hr
    obtain ⟨v, hv⟩ := Option.isSome_iff_exists.mp (h r hr)
    simp [hv, Function.comp]
  · show (do
      let col ← attrVals name ch.data.chunks
      let mask := col.map (fun v => vs.contains v)
      pure (⟨ch.corpus, ⟨filterByMask ch.data.chunks mask, ch.data.chunk_atoms⟩⟩ : Chunks))
      = _
    rw [hvals]
    show Except.ok (⟨ch.corpus, ⟨filterByMask ch.data.chunks
      ((ch.data.chunks.map (fun r => (r.attr name).getD 0)).map (fun v => vs.contains v)),
      ch.data.chunk_atoms⟩⟩ : Chunks) = _
    rw [List.map_map, filterByMask_map]
    congr 3
    refine List.filter_congr ?_
    intro r hr
    obtain ⟨v, hv⟩ := Option.isSome_iff_exists.mp (h r hr)
    simp [hv, Function.comp]

/-- Witness for C10 at the example corpus. -/
theorem c10_witness :
    thresholdCall "width" Dir.gt 100 exLineChunks = .ok ⟨exLineChunks.corpus,
      ⟨exLineChunks.data.chunks.filter
        (fun r => ((r.attr "width").map (fun v => Dir.gt.test v 100)).getD false),
       exLineChunks.data.chunk_atoms⟩⟩ ∧
    equalToCall "width" [110] exLineChunks = .ok ⟨exLineChunks.corpus,
      ⟨exLineChunks.data.chunks.filter
        (fun r => ((r.attr "width").map (fun v => [(110 : Int)].contains v)).getD false),
       exLineChunks.data.chunk_atoms⟩⟩ :=
  c10_threshold_equalTo_preserve_order exLineChunks "width" Dir.gt 100 [110]
    (by decide)

/-! ## C6 — filters only subset/reorder `chunks`, keep everything else -/

theorem mem_of_getElemOpt {α : Type} {l : List α} {i : Nat} {a : α}
    (h : l[i]? = some a) : a ∈ l := by
  have hi : i < l.length := by
    by_contra hc
    rw [List.getElem?_eq_none (Nat.le_of_not_lt hc)] at h
    exact Option.noConfusion h
  rw [List.getElem?_eq_getElem hi] at h
  exact (Option.some.injEq .. ▸ h : l[i] = a) ▸ l.getElem_mem hi

/-- **C6.** Every chunk filter returns a `Chunks` whose `chunk_atoms`
table and corpus reference are identical to the input's, whose
`chunks` table has at most as many rows as the input's, and whose rows
are all rows of the input (`Threshold` and `EqualTo` produce
subsequences; any `TopK` kernel output takes existing rows). -/
theorem c6_filters_frame (ch out tout eout : Chunks) (name : String) (d : Dir)
    (t : Int) (vs : List Int) (k : Nat) (rev : Bool)
    (hth : thresholdCall name d t ch = .ok tout)
    (heq : equalToCall name vs ch = .ok eout)
    (htk : TopKRel name k rev ch out) :
    (tout.data.chunk_atoms = ch.data.chunk_atoms ∧ tout.corpus = ch.corpus ∧
      tout.data.chunks.length ≤ ch.data.chunks.length ∧
      ∀ r ∈ tout.data.chunks, r ∈ ch.data.chunks) ∧
    (eout.data.chunk_atoms = ch.data.chunk_atoms ∧ eout.corpus = ch.corpus ∧
      eout.data.chunks.length ≤ ch.data.chunks.length ∧
      ∀ r ∈ eout.data.chunks, r ∈ ch.data.chunks) ∧
    (out.data.chunk_atoms = ch.data.chunk_atoms ∧ out.corpus = ch.corpus ∧
      out.data.chunks.length ≤ ch.data.chunks.length ∧
      ∀ r ∈ out.data.chunks, r ∈ ch.data.chunks) := by
  refine ⟨?_, ?_, ?_⟩
  · revert hth
    show (do
      let values ← attrVals name ch.data.chunks
      let mask := values.map (fun v => d.test v t)
      pure (⟨ch.corpus, ⟨filterByMask ch.data.chunks mask, ch.data.chunk_atoms⟩⟩ : Chunks))
      = .ok tout → _
    cases hv : attrVals name ch.data.chunks with
    | error e => intro hth; exact Except.noConfusion hth
    | ok values =>
      intro hth
      simp only [Bind.bind, Except.bind, pure, Except.pure, Except.ok.injEq] at hth
      subst hth
      have hsub := filterByMask_sublist ch.data.chunks
        (values.map (fun v => d.test v t))
      exact ⟨rfl, rfl, hsub.length_le, fun r hr => hsub.mem hr⟩
  · revert heq
    show (do
      let col ← attrVals name ch.data.chunks
      let mask := col.map (fun v => vs.contains v)
      pure (⟨ch.corpus, ⟨filterByMask ch.data.chunks mask, ch.data.chunk_atoms⟩⟩ : Chunks))
      = .ok eout → _
    cases hv : attrVals name ch.data.chunks with
    | error e => intro heq; exact Except.noConfusion heq
    | ok col =>
      intro heq
      simp only [Bind.bind, Except.bind, pure, Except.pure, Except.ok.injEq] at heq
      subst heq
      have hsub := filterByMask_sublist ch.data.chunks
        (col.map (fun v => vs.contains v))
      exact ⟨rfl, rfl, hsub.length_le, fun r hr => hsub.mem hr⟩
  · obtain ⟨values, idxs, hv, hspec, hout⟩ := htk
    subst hout
    refine ⟨rfl, rfl, ?_, ?_⟩
    · calc (idxs.filterMap (fun i => ch.data.chunks[i]?)).length
          ≤ idxs.length := List.length_filterMap_le _ _
        _ = min k values.length := hspec.1
        _ ≤ values.length := Nat.min_le_right k _
        _ = ch.data.chunks.length :=
            (mapM_ok_forall2 _ ch.data.chunks values hv).length_eq.symm
    · intro r hr
      obtain ⟨i, _, hget⟩ := List.mem_filterMap.mp hr
      exact mem_of_getElemOpt hget

/-- Witness for C6: the three filters applied to the example corpus,
with the `TopK` kernel output `[1]` (the row with the greater
`width`). -/
theorem c6_witness :
    (∃ tout eout out : Chunks,
      thresholdCall "width" Dir.gt 150 exLineChunks = .ok tout ∧
      equalToCall "width" [110] exLineChunks = .ok eout ∧
      TopKRel "width" 1 false exLineChunks out ∧
      (tout.data.chunk_atoms = exLineChunks.data.chunk_atoms ∧
        tout.corpus = exLineChunks.corpus ∧
        tout.data.chunks.length ≤ exLineChunks.data.chunks.length ∧
        ∀ r ∈ tout.data.chunks, r ∈ exLineChunks.data.chunks) ∧
      (eout.data.chunk_atoms = exLineChunks.data.chunk_atoms ∧
        eout.corpus = exLineChunks.corpus ∧
        eout.data.chunks.length ≤ exLineChunks.data.chunks.length ∧
        ∀ r ∈ eout.data.chunks, r ∈ exLineChunks.data.chunks) ∧
      (out.data.chunk_atoms = exLineChunks.data.chunk_atoms ∧
        out.corpus = exLineChunks.corpus ∧
        out.data.chunks.length ≤ exLineChunks.data.chunks.length ∧
        ∀ r ∈ out.data.chunks, r ∈ exLineChunks.data.chunks)) := by
  have hth : thresholdCall "width" Dir.gt 150 exLineChunks =
      .ok ⟨exCorpus, ⟨[⟨102, [("width", 200)]⟩], exLineData.chunk_atoms⟩⟩ := by decide
  have heq : equalToCall "width" [110] exLineChunks =
      .ok ⟨exCorpus, ⟨[⟨101, [("width", 110)]⟩], exLineData.chunk_atoms⟩⟩ := by decide
  have htk : TopKRel "width" 1 false exLineChunks
      ⟨exCorpus, ⟨[⟨102, [("width", 200)]⟩], exLineData.chunk_atoms⟩⟩ :=
    ⟨[110, 200], [1], by decide, by decide, by decide⟩
  exact ⟨_, _, _, hth, heq, htk,
    c6_filters_frame exLineChunks _ _ _ "width" Dir.gt 150 [110] 1 false hth heq htk⟩

/-! ## C2 — Corpus.merge -/

theorem lookup_isSome_iff {κ β : Type} [DecidableEq κ] (l : List (κ × β)) (a : κ) :
    (l.lookup a).isSome = true ↔ a ∈ l.map Prod.fst := by
  induction l with
  | nil => simp [List.lookup]
  | cons p rest ih =>
    simp only [List.lookup, List.map_cons, List.mem_cons]
    by_cases hx : a = p.1
    · have hbeq : (a == p.1) = true := beq_iff_eq.mpr hx
      simp [hbeq, hx]
    · have hbeq : (a == p.1) = false := beq_eq_false_iff_ne.mpr hx
      simp [hbeq, ih, hx]

theorem mapM_ok_of_forall {α β ε : Type} (f : α → Except ε β) (l : List α)
    (h : ∀ x ∈ l, ∃ y, f x = .ok y) : ∃ ys, l.mapM f = .ok ys := by
  induction l with
  | nil => exact ⟨[], rfl⟩
  | cons x rest ih =>
    obtain ⟨y, hy⟩ := h x (List.mem_cons_self x rest)
    obtain ⟨ys, hys⟩ := ih (fun z hz => h z (List.mem_cons_of_mem x hz))
    refine ⟨y :: ys, ?_⟩
    rw [List.mapM_cons, hy, hys]
    rfl

/-- The merged registry entry for one name, as `merge` computes it. -/
def mergedEntry (corpora : List Corpus) (k : String) : ChunksData :=
  match corpora.mapM (fun c => c.chunkByName k) with
  | .ok ds => ⟨ds.flatMap (fun d => d.chunks), ds.flatMap (fun d => d.chunk_atoms)⟩
  | .error _ => ⟨[], []⟩

/-- **C2 (amended).** For a non-empty collection of corpora in which
every chunk name present in *any* input is present in *all* inputs,
`Corpus.merge` returns a corpus whose atom table is the concatenation
of the inputs' atom tables, and whose registry maps every such name to
the concatenation of that name's `chunks`/`chunk_atoms` tables across
the inputs.  (When a name is missing from some input, `merge` instead
raises `KeyError` — see the counterexample.) -/
theorem c2_merge_amended (c0 : Corpus) (rest : List Corpus)
    (hall : ∀ corp ∈ c0 :: rest, ∀ name : String,
      (∃ corp2 ∈ c0 :: rest, (corp2.registry.lookup name).isSome = true) →
      (corp.registry.lookup name).isSome = true) :
    ∃ m, Corpus.mergeM (c0 :: rest) = .ok m ∧
      m.atoms.rows = (c0 :: rest).flatMap (fun c => c.atoms.rows) ∧
      ∀ name : String,
        (∃ corp2 ∈ c0 :: rest, (corp2.registry.lookup name).isSome = true) →
        ∀ ds, (c0 :: rest).mapM (fun c => c.chunkByName name) = .ok ds →
          m.chunkByName name =
            .ok ⟨ds.flatMap (fun d => d.chunks), ds.flatMap (fun d => d.chunk_atoms)⟩ := by
  set corpora := c0 :: rest with hcorp
  set keys := dedupFirst (corpora.flatMap (fun c => c.registry.map Prod.fst)) with hkeys
  have hkeyOk : ∀ k ∈ keys, ∀ corp ∈ corpora, ∃ d, corp.chunkByName k = .ok d := by
    intro k hk corp hcorpm
    have hkin : k ∈ corpora.flatMap (fun c => c.registry.map Prod.fst) :=
      (mem_dedupFirst _ _).mp hk
    obtain ⟨corp2, hc2, hk2⟩ := List.mem_flatMap.mp hkin
    have hsome : (corp.registry.lookup k).isSome = true :=
      hall corp hcorpm k ⟨corp2, hc2, (lookup_isSome_iff _ _).mpr hk2⟩
    obtain ⟨d, hd⟩ := Option.isSome_iff_exists.mp hsome
    exact ⟨d, by simp [Corpus.chunkByName, hd]⟩
  have hstep : ∀ k ∈ keys, mergeStep corpora k = Except.ok (k, mergedEntry corpora k) := by
    intro k hk
    obtain ⟨ds, hds⟩ := mapM_ok_of_forall _ corpora (fun c hc => hkeyOk k hk c hc)
    unfold mergeStep
    rw [hds]
    simp only [Bind.bind, Except.bind, pure, Except.pure, mergedEntry, hds]
  have hreg : keys.mapM (mergeStep corpora)
      = .ok (keys.map (fun k => (k, mergedEntry corpora k))) :=
    mapM_eq_ok_map _ _ _ hstep
  refine ⟨⟨⟨c0.atoms.hasOrdinal, c0.atoms.hasText,
    corpora.flatMap (fun c => c.atoms.rows)⟩,
    keys.map (fun k => (k, mergedEntry corpora k))⟩, ?_, rfl, ?_⟩
  · show (do
      let reg ← keys.mapM (mergeStep corpora)
      pure (⟨⟨c0.atoms.hasOrdinal, c0.atoms.hasText,
        corpora.flatMap (fun c => c.atoms.rows)⟩, reg⟩ : Corpus)) = _
    rw [hreg]
    rfl
  · intro name hex ds hds
    have hnk : name ∈ keys := by
      obtain ⟨corp2, hc2, hsome2⟩ := hex
      rw [hkeys, mem_dedupFirst]
      exact List.mem_flatMap.mpr ⟨corp2, hc2, (lookup_isSome_iff _ _).mp hsome2⟩
    show (match (keys.map (fun k => (k, mergedEntry corpora k))).lookup name with
      | some d => Except.ok d
      | none => Except.error (Err.keyError name)) = _
    rw [lookup_map_keyFun, if_pos hnk]
    simp only [mergedEntry, hds]

/-- Counterexample for C2 as stated: a corpus registering `"line"`
merged with one that does not register it makes `merge` raise
`KeyError` instead of producing a merged corpus. -/
theorem c2_counterexample :
    Corpus.mergeM [exCorpus, ⟨exAtoms, [("document", exDocData)]⟩] =
      .error (.keyError "line") := by decide

/-- Witness for C2 at two copies of the example corpus. -/
theorem c2_witness :
    ∃ m, Corpus.mergeM [exCorpus, exCorpus] = .ok m ∧
      m.atoms.rows = [exCorpus, exCorpus].flatMap (fun c => c.atoms.rows) ∧
      m.chunkByName "line" =
        .ok ⟨[exLineData, exLineData].flatMap (fun d => d.chunks),
             [exLineData, exLineData].flatMap (fun d => d.chunk_atoms)⟩ := by
  obtain ⟨m, h1, h2, h3⟩ := c2_merge_amended exCorpus [exCorpus]
    (by
      rintro corp hcorp name ⟨corp2, hc2, hsome⟩
      have he : corp = exCorpus := by
        rcases List.mem_cons.mp hcorp with h | h
        · exact h
        · simpa using h
      have he2 : corp2 = exCorpus := by
        rcases List.mem_cons.mp hc2 with h | h
        · exact h
        · simpa using h
      rw [he]; rw [he2] at hsome; exact hsome)
  refine ⟨m, h1, h2, ?_⟩
  have := h3 "line" ⟨exCorpus, List.mem_cons_self _ _, by decide⟩
    [exLineData, exLineData] (by decide)
  exact this

/-! ## C3 — chunker schema errors -/

/-- The example atoms without an `ordinal` column. -/
def exNoOrdCorpus : Corpus :=
  ⟨⟨false, true, exAtoms.rows⟩, [("document", exDocData)]⟩

/-- The example atoms without a `text` column. -/
def exNoTextCorpus : Corpus :=
  ⟨⟨true, false, exAtoms.rows⟩, [("document", exDocData)]⟩

/-- **C3 (amended).** Both chunkers eagerly fail with the schema
`KeyError` naming `ordinal` when the atom table lacks `ordinal`.  When
`ordinal` is present but `text` is absent, `RegexMatchChunk` still
fails before producing any chunk collection, but with the table
engine's column-not-found error naming `text` raised during the
computation — there is no eager schema check for `text`. -/
theorem c3_schema_errors_amended (c1 c2 : Corpus)
    (matcher : String → List (Nat × Nat)) (constraint : String)
    (size offset : Int) (cl : Closed) (bd : ChunksData)
    (h1 : c1.atoms.hasOrdinal = false)
    (h2o : c2.atoms.hasOrdinal = true) (h2t : c2.atoms.hasText = false)
    (h2b : c2.chunkByName constraint = .ok bd) :
    fixedSizeChunk constraint size offset cl c1 = .error (.keyError "ordinal") ∧
    regexMatchChunk matcher constraint c1 = .error (.keyError "ordinal") ∧
    regexMatchChunk matcher constraint c2 = .error (.columnNotFound "text") := by
  refine ⟨?_, ?_, ?_⟩
  · simp [fixedSizeChunk, h1, Bind.bind, Except.bind, throw, throwThe,
      MonadExceptOf.throw]
  · simp [regexMatchChunk, h1, Bind.bind, Except.bind, throw, throwThe,
      MonadExceptOf.throw]
  · simp [regexMatchChunk, h2o, h2t, h2b, Bind.bind, Except.bind, throw, throwThe,
      MonadExceptOf.throw, pure, Except.pure]

/-- Witness for C3 at concrete corpora lacking `ordinal` and `text`
respectively. -/
theorem c3_witness :
    fixedSizeChunk "document" 2 0 Closed.left exNoOrdCorpus =
      .error (.keyError "ordinal") ∧
    regexMatchChunk (fun _ => []) "document" exNoOrdCorpus =
      .error (.keyError "ordinal") ∧
    regexMatchChunk (fun _ => []) "document" exNoTextCorpus =
      .error (.columnNotFound "text") :=
  c3_schema_errors_amended exNoOrdCorpus exNoTextCorpus (fun _ => [])
    "document" 2 0 Closed.left exDocData rfl rfl rfl (by decide)

/-- Counterexample for C3 as stated: with `ordinal` present and `text`
absent, `RegexMatchChunk` does *not* raise the eager schema `KeyError`
naming `text`; it fails with the engine's column-not-found error. -/
theorem c3_counterexample :
    regexMatchChunk (fun _ => []) "document" exNoTextCorpus =
      .error (.columnNotFound "text") ∧
    regexMatchChunk (fun _ => []) "document" exNoTextCorpus ≠
      .error (.keyError "text") := by
  constructor
  · decide
  · decide

/-! ## C5 — SimpleStringify per-chunk characterization -/

theorem mem_keys_iff_filter_ne {κ β : Type} [DecidableEq κ] (l : List (κ × β)) (a : κ) :
    a ∈ l.map Prod.fst ↔ l.filter (fun p => p.1 = a) ≠ [] := by
  constructor
  · intro h
    obtain ⟨p, hp, hpa⟩ := List.mem_map.mp h
    intro hnil
    rw [List.filter_eq_nil_iff] at hnil
    exact hnil p hp (by simp [hpa])
  · intro h
    obtain ⟨p, hp⟩ := List.exists_mem_of_ne_nil _ h
    have hmem := List.mem_filter.mp hp
    exact List.mem_map.mpr ⟨p, hmem.1, of_decide_eq_true hmem.2⟩

/-- The `chunks`-led blocks of `ssJoined`, filtered down to one
(pairwise distinct) chunk id, recover that chunk's member atoms. -/
theorem ssJoined_filter (ch : Chunks) (hN : (ch.data.chunks.map (fun r => r.id)).Nodup)
    (r : ChunkRow) (hr : r ∈ ch.data.chunks) :
    ((ssJoined ch).filter (fun p => p.1 = r.id)).map Prod.snd = ssChunkAtoms ch r.id := by
  unfold ssJoined
  rw [filter_key_flatMap ch.data.chunks _ (fun r => r.id)
    (by
      intro x hx p hp
      obtain ⟨ca, hca, hpa⟩ := List.mem_flatMap.mp hp
      obtain ⟨a, _, hae⟩ := List.mem_map.mp hpa
      rw [← hae]) r.id,
    filter_key_eq_singleton ch.data.chunks (fun r => r.id) hN r hr]
  unfold ssChunkAtoms
  simp [List.map_flatMap, List.map_map, Function.comp]

/-- `SimpleStringify`'s per-chunk value: the member atoms' texts
sorted by `ordinal` and joined with the delimiter — null when the
chunk has no joined member atoms. -/
def ssValue (delim : String) (ch : Chunks) (cid : Nat) : Option String :=
  match ssChunkAtoms ch cid with
  | [] => none
  | atoms => some (ssAgg delim atoms)

/-- `SimpleStringify` yields one value per chunk row, aligned with
the row order; chunks with no member atoms yield null. -/
theorem simpleStringify_eq_map (ch : Chunks) (d : String)
    (hT : ch.corpus.atoms.hasText = true) (hO : ch.corpus.atoms.hasOrdinal = true)
    (hN : (ch.data.chunks.map (fun r => r.id)).Nodup) :
    simpleStringify d ch = .ok (ch.data.chunks.map (fun r => ssValue d ch r.id)) := by
  unfold simpleStringify
  rw [hT, hO]
  simp only [Bool.not_true, Bool.false_eq_true, if_false]
  congr 1
  refine List.map_congr_left ?_
  intro r hr
  rw [lookup_map_snd, lookup_groupByKey]
  by_cases hk : r.id ∈ (ssJoined ch).map Prod.fst
  · rw [if_pos hk]
    have hfilter := ssJoined_filter ch hN r hr
    have hne : ssChunkAtoms ch r.id ≠ [] := by
      rw [← hfilter]
      simp only [ne_eq, List.map_eq_nil_iff]
      exact (mem_keys_iff_filter_ne _ _).mp hk
    unfold ssValue
    cases hA : ssChunkAtoms ch r.id with
    | nil => exact absurd hA hne
    | cons a rest =>
      rw [hfilter, hA]
      rfl
  · rw [if_neg hk]
    have hnil : ssChunkAtoms ch r.id = [] := by
      by_contra hne
      apply hk
      rw [mem_keys_iff_filter_ne]
      intro hfnil
      have := ssJoined_filter ch hN r hr
      rw [hfnil] at this
      exact hne this.symm
    unfold ssValue
    rw [hnil]
    rfl

/-- **C5 (amended).** Over a corpus whose atom table has `text` and
`ordinal` (and pairwise-distinct chunk ids), `SimpleStringify`
yields one value per chunk row, aligned with the row order: for a
chunk with member atoms, the atoms' texts sorted by `ordinal` joined
with the delimiter; for a chunk with *no* member atoms, a **null**
value (not the empty string — see the counterexample). -/
theorem c5_simpleStringify_amended (ch : Chunks) (d : String)
    (hT : ch.corpus.atoms.hasText = true) (hO : ch.corpus.atoms.hasOrdinal = true)
    (hN : (ch.data.chunks.map (fun r => r.id)).Nodup) :
    simpleStringify d ch = .ok (ch.data.chunks.map (fun r => ssValue d ch r.id)) :=
  simpleStringify_eq_map ch d hT hO hN

/-- Witness for C5 at the example line chunks. -/
theorem c5_witness :
    simpleStringify "?" exLineChunks =
      .ok (exLineChunks.data.chunks.map (fun r => ssValue "?" exLineChunks r.id)) :=
  c5_simpleStringify_amended exLineChunks "?" rfl rfl (by decide)

/-- Counterexample for C5 as stated: a chunk with zero member atoms
stringifies to a null value, not to the empty string. -/
theorem c5_counterexample :
    simpleStringify " " exEmptyChunks = .ok [some "The quick", none] ∧
    (none : Option String) ≠ some "" := by
  constructor
  · decide
  · decide

/-! ## C4 — TopK -/

instance : Inhabited ChunkRow := ⟨⟨0, []⟩⟩

theorem map_getD_range {α : Type} [Inhabited α] (l : List α) :
    (List.range l.length).map (fun i => l.getD i default) = l := by
  induction l with
  | nil => rfl
  | cons a rest ih =>
    rw [List.length_cons, List.range_succ_eq_map, List.map_cons, List.map_map]
    have htail : (List.range rest.length).map
        ((fun i => (a :: rest).getD i default) ∘ Nat.succ) = rest := by
      refine (List.map_congr_left ?_).trans ih
      intro i _
      rfl
    rw [htail]
    rfl

theorem filterMap_getElemOpt_eq_map {α : Type} [Inhabited α] (l : List α)
    (idxs : List Nat) (h : ∀ i ∈ idxs, i < l.length) :
    idxs.filterMap (fun i => l[i]?) = idxs.map (fun i => l.getD i default) := by
  induction idxs with
  | nil => rfl
  | cons i rest ih =>
    have hi := h i (List.mem_cons_self i rest)
    rw [List.filterMap_cons, List.getElem?_eq_getElem hi, List.map_cons]
    simp only [Option.isSome_some]
    rw [ih (fun j hj => h j (List.mem_cons_of_mem i hj))]
    congr 1
    rw [List.getD_eq_getElem?_getD, List.getElem?_eq_getElem hi]
    rfl

theorem attrVals_getD (name : String) (rows : List ChunkRow) (vals : List Int)
    (h : attrVals name rows = .ok vals) :
    vals.length = rows.length ∧
    ∀ i, i < rows.length → (rows.getD i default).attr name = some (vals.getD i 0) := by
  have hf := mapM_ok_forall2 _ rows vals h
  obtain ⟨hlen, hget⟩ := List.forall₂_iff_get.mp hf
  refine ⟨hlen.symm, ?_⟩
  intro i hi
  have h2 : i < vals.length := hlen ▸ hi
  have hstep := hget i hi h2
  cases ha : (rows.get ⟨i, hi⟩).attr name with
  | none =>
    rw [ha] at hstep
    exact absurd hstep (by simp)
  | some v =>
    rw [ha] at hstep
    have hv : v = vals.get ⟨i, h2⟩ := by
      have := Except.ok.injEq .. ▸ hstep
      simpa using hstep
    have hgd : rows.getD i default = rows.get ⟨i, hi⟩ := by
      rw [List.getD_eq_getElem?_getD, List.getElem?_eq_getElem hi]
      rfl
    have hvd : vals.getD i 0 = vals.get ⟨i, h2⟩ := by
      rw [List.getD_eq_getElem?_getD, List.getElem?_eq_getElem h2]
      rfl
    rw [hgd, ha, hv, hvd]

theorem alongOrdered_chain (descending : Bool) (values : List Int) :
    ∀ (l : List Nat), alongOrdered descending values l = true →
      List.Chain' (fun i j =>
        if descending then values.getD j 0 ≤ values.getD i 0
        else values.getD i 0 ≤ values.getD j 0) l := by
  intro l
  induction l with
  | nil => intro _; exact List.chain'_nil
  | cons i rest ih =>
    cases rest with
    | nil => intro _; simp
    | cons j rest2 =>
      intro h
      rw [show alongOrdered descending values (i :: j :: rest2) =
        ((if descending then decide (values.getD j 0 ≤ values.getD i 0)
          else decide (values.getD i 0 ≤ values.getD j 0)) &&
          alongOrdered descending values (j :: rest2)) from rfl,
        Bool.and_eq_true] at h
      refine List.chain'_cons.mpr ⟨?_, ih h.2⟩
      have hc := h.1
      cases descending with
      | true => simpa using of_decide_eq_true (by simpa using hc)
      | false => simpa using of_decide_eq_true (by simpa using hc)

/-- **C4 (amended).** Any output of `TopK` (through the unstable
selection kernel's contract) has exactly `min k n` rows, all drawn
from the input; when `k ≥ n` the output is a permutation of all input
rows; the output rows are ordered by the attribute (descending, or
ascending when `reverse`); and the input splits into the selected rows
plus a remainder every one of whose attribute values is dominated by
every selected row's value.  Tie-break order among equal attribute
values is *not* determined (the kernel is unstable — see the
counterexample), so no stable tie-break is guaranteed. -/
theorem c4_topk_amended (cin cout : Chunks) (name : String) (k : Nat) (rev : Bool)
    (htk : TopKRel name k rev cin cout) :
    cout.data.chunks.length = min k cin.data.chunks.length ∧
    (cin.data.chunks.length ≤ k → cout.data.chunks.Perm cin.data.chunks) ∧
    (∀ r ∈ cout.data.chunks, r ∈ cin.data.chunks) ∧
    List.Chain' (fun x y => if rev then x ≤ y else y ≤ x)
      (cout.data.chunks.map (fun r => (r.attr name).getD 0)) ∧
    ∃ rest, (cout.data.chunks ++ rest).Perm cin.data.chunks ∧
      ∀ r ∈ cout.data.chunks, ∀ r2 ∈ rest,
        if rev then (r.attr name).getD 0 ≤ (r2.attr name).getD 0
        else (r2.attr name).getD 0 ≤ (r.attr name).getD 0 := by
  obtain ⟨vals, idxs, hv, hspec, hout⟩ := htk
  obtain ⟨hlenEq, hnodup, hboundsV, hord, hdom⟩ := hspec
  have hpt := attrVals_getD name cin.data.chunks vals hv
  have hlen : vals.length = cin.data.chunks.length := hpt.1
  have hattr := hpt.2
  have hbounds : ∀ i ∈ idxs, i < cin.data.chunks.length :=
    fun i hi => hlen ▸ hboundsV i hi
  have hchunks : cout.data.chunks =
      idxs.map (fun i => cin.data.chunks.getD i default) := by
    rw [hout]
    exact filterMap_getElemOpt_eq_map cin.data.chunks idxs hbounds
  have hattrIdx : ∀ i ∈ idxs,
      ((cin.data.chunks.getD i default).attr name).getD 0 = vals.getD i 0 := by
    intro i hi
    rw [hattr i (hbounds i hi)]
    rfl
  -- the complement of the selected indices
  set compl := (List.range cin.data.chunks.length).filter
    (fun j => decide (j ∉ idxs)) with hcompl
  have hcomplNodup : compl.Nodup := (List.nodup_range _).filter _
  have hdisj : idxs.Disjoint compl := by
    intro a ha hac
    have := (List.mem_filter.mp hac).2
    exact (of_decide_eq_true this) ha
  have hpermIdx : (idxs ++ compl).Perm (List.range cin.data.chunks.length) := by
    refine (List.perm_ext_iff_of_nodup
      (List.Nodup.append hnodup hcomplNodup hdisj) (List.nodup_range _)).mpr ?_
    intro a
    constructor
    · intro h
      rcases List.mem_append.mp h with h | h
      · exact List.mem_range.mpr (hbounds a h)
      · exact (List.mem_filter.mp h).1
    · intro h
      by_cases ha : a ∈ idxs
      · exact List.mem_append.mpr (Or.inl ha)
      · exact List.mem_append.mpr (Or.inr
          (List.mem_filter.mpr ⟨h, decide_eq_true ha⟩))
  have hpermRows : ((idxs ++ compl).map
        (fun i => cin.data.chunks.getD i default)).Perm cin.data.chunks := by
    have := hpermIdx.map (fun i => cin.data.chunks.getD i default)
    rwa [map_getD_range cin.data.chunks] at this
  have hsplit : (cout.data.chunks ++
      compl.map (fun i => cin.data.chunks.getD i default)).Perm cin.data.chunks := by
    rw [hchunks, ← List.map_append]
    exact hpermRows
  have hlenOut : cout.data.chunks.length = min k cin.data.chunks.length := by
    rw [hchunks, List.length_map, hlenEq, hlen]
  refine ⟨hlenOut, ?_, ?_, ?_, ?_⟩
  · -- k ≥ n: all rows, as a permutation
    intro hk
    have hminEq : min k cin.data.chunks.length = cin.data.chunks.length :=
      Nat.min_eq_right hk
    have hrestLen : (compl.map (fun i => cin.data.chunks.getD i default)).length = 0 := by
      have htot := hsplit.length_eq
      rw [List.length_append, hlenOut, hminEq] at htot
      omega
    have hrestNil := List.eq_nil_of_length_eq_zero hrestLen
    have := hsplit
    rw [hrestNil, List.append_nil] at this
    exact this
  · -- all output rows are input rows
    intro r hr
    rw [hchunks] at hr
    obtain ⟨i, hi, hie⟩ := List.mem_map.mp hr
    have hib := hbounds i hi
    have : cin.data.chunks.getD i default = cin.data.chunks[i] := by
      rw [List.getD_eq_getElem?_getD, List.getElem?_eq_getElem hib]
      rfl
    rw [← hie, this]
    exact List.getElem_mem hib
  · -- output ordered by the attribute
    rw [hchunks, List.map_map]
    have hchain := alongOrdered_chain (!rev) vals idxs hord
    have hmapeq : idxs.map ((fun r => (r.attr name).getD 0) ∘
        (fun i => cin.data.chunks.getD i default)) =
        idxs.map (fun i => vals.getD i 0) :=
      List.map_congr_left (fun i hi => hattrIdx i hi)
    rw [hmapeq]
    refine List.chain'_map_of_chain' _ ?_ hchain
    intro a b hab
    cases rev with
    | true => simpa using (by simpa using hab : vals.getD a 0 ≤ vals.getD b 0)
    | false => simpa using (by simpa using hab : vals.getD b 0 ≤ vals.getD a 0)
  · -- selected rows dominate the rest
    refine ⟨compl.map (fun i => cin.data.chunks.getD i default), hsplit, ?_⟩
    intro r hr r2 hr2
    rw [hchunks] at hr
    obtain ⟨i, hi, hie⟩ := List.mem_map.mp hr
    obtain ⟨j, hj, hje⟩ := List.mem_map.mp hr2
    have hjrange := (List.mem_filter.mp hj).1
    have hjnot : j ∉ idxs := of_decide_eq_true (List.mem_filter.mp hj).2
    have hjr : j ∈ List.range vals.length := by
      rw [hlen]
      exact hjrange
    have hd := hdom i hi j hjr hjnot
    rw [← hie, ← hje]
    have h1 := hattrIdx i hi
    have h2 : ((cin.data.chunks.getD j default).attr name).getD 0 = vals.getD j 0 := by
      rw [hattr j (by rw [← hlen]; exact List.mem_range.mp hjr)]
      rfl
    rw [h1, h2]
    cases rev with
    | true => simpa using (by simpa using hd : vals.getD i 0 ≤ vals.getD j 0)
    | false => simpa using (by simpa using hd : vals.getD j 0 ≤ vals.getD i 0)

/-- A chunk collection with two rows carrying the same attribute
value. -/
def exTieChunks : Chunks :=
  ⟨exCorpus, ⟨[⟨101, [("s", 5)]⟩, ⟨102, [("s", 5)]⟩], []⟩⟩

/-- Counterexample for C4 as stated: on a tie, two different outputs
both satisfy `TopK`'s selection contract (the kernel is unstable), so
no stable tie-break order among equal values is guaranteed; in
particular an output keeping the *second* row instead of the first is
valid. -/
theorem c4_counterexample :
    ∃ c1 c2 : Chunks,
      TopKRel "s" 1 false exTieChunks c1 ∧
      TopKRel "s" 1 false exTieChunks c2 ∧
      c1.data.chunks ≠ c2.data.chunks := by
  refine ⟨⟨exCorpus, ⟨[⟨101, [("s", 5)]⟩], []⟩⟩,
    ⟨exCorpus, ⟨[⟨102, [("s", 5)]⟩], []⟩⟩,
    ⟨[5, 5], [0], by decide, by decide, by decide⟩,
    ⟨[5, 5], [1], by decide, by decide, by decide⟩,
    by decide⟩

/-- Witness for C4 at the example chunks with `k = 1`. -/
theorem c4_witness :
    ∃ cout : Chunks, TopKRel "width" 1 false exLineChunks cout ∧
      (cout.data.chunks.length = min 1 exLineChunks.data.chunks.length ∧
        (exLineChunks.data.chunks.length ≤ 1 →
          cout.data.chunks.Perm exLineChunks.data.chunks) ∧
        (∀ r ∈ cout.data.chunks, r ∈ exLineChunks.data.chunks) ∧
        List.Chain' (fun x y => if false then x ≤ y else y ≤ x)
          (cout.data.chunks.map (fun r => (r.attr "width").getD 0)) ∧
        ∃ rest, (cout.data.chunks ++ rest).Perm exLineChunks.data.chunks ∧
          ∀ r ∈ cout.data.chunks, ∀ r2 ∈ rest,
            if false then (r.attr "width").getD 0 ≤ (r2.attr "width").getD 0
            else (r2.attr "width").getD 0 ≤ (r.attr "width").getD 0) := by
  have htk : TopKRel "width" 1 false exLineChunks
      ⟨exCorpus, ⟨[⟨102, [("width", 200)]⟩], exLineData.chunk_atoms⟩⟩ :=
    ⟨[110, 200], [1], by decide, by decide, by decide⟩
  exact ⟨_, htk, c4_topk_amended exLineChunks _ "width" 1 false htk⟩

/-! ## C1 helpers — per-chunk characterizations of AtomData,
ChunkOverlap and RegexCount -/

theorem flatMap_map_out {α β γ : Type} (l : List α) (f : α → List β) (g : β → γ) :
    l.flatMap (fun x => (f x).map g) = (l.flatMap f).map g :=
  (List.map_flatMap g f l).symm

/-- `AtomData`'s per-chunk value: the member atoms' requested
attribute values, in join order. -/
def atomDataValue (attrName : String) (ch : Chunks) (cid : Nat) : List (Option Int) :=
  (ssChunkAtoms ch cid).map (fun a => a.attrs.lookup attrName)

/-- With pairwise-distinct chunk ids and every chunk having at least
one joined member atom, `AtomData` yields one aligned value per chunk
row. -/
theorem atomData_eq_map (attrName : String) (ch : Chunks)
    (hN : (ch.data.chunks.map (fun r => r.id)).Nodup)
    (hne : ∀ r ∈ ch.data.chunks, ssChunkAtoms ch r.id ≠ []) :
    atomData attrName ch =
      ch.data.chunks.map (fun r => atomDataValue attrName ch r.id) := by
  unfold atomData atomDataRows
  have hblock : ∀ r : ChunkRow,
      ((ch.data.chunk_atoms.filter (fun ca => ca.1 = r.id)).flatMap (fun ca =>
        (ch.corpus.atoms.rows.filter (fun a => a.id = ca.2)).map
          (fun a => (r.id, a.attrs.lookup attrName)))) =
      (ssChunkAtoms ch r.id).map (fun a => (r.id, a.attrs.lookup attrName)) := by
    intro r
    unfold ssChunkAtoms
    rw [← flatMap_map_out]
  rw [groupByKey_flatMap_blocks ch.data.chunks _ (fun r => r.id) hN
    (by
      intro r _ p hp
      rw [hblock r] at hp
      obtain ⟨a, _, hae⟩ := List.mem_map.mp hp
      rw [← hae])
    (by
      intro r hr
      rw [hblock r]
      simp only [ne_eq, List.map_eq_nil_iff]
      exact hne r hr)]
  rw [List.map_map]
  refine List.map_congr_left ?_
  intro r _
  simp only [Function.comp_apply]
  rw [hblock r]
  unfold atomDataValue
  rw [List.map_map]
  rfl

/-- `ChunkOverlap`'s per-chunk is-not-null flags: the left-join
expansion restricted to the chunk's membership rows. -/
def overlapFlags (bAtoms aAtoms : List (Nat × Nat)) (cid : Nat) : List Bool :=
  (overlapRows bAtoms (aAtoms.filter (fun ca => ca.1 = cid))).map Prod.snd

/-- When the first-appearance order of chunk ids in `chunk_atoms`
matches the `chunks` row order (in particular every chunk has at least
one membership row), `ChunkOverlap` yields one aligned value per chunk
row. -/
theorem overlapExpand_key (bAtoms : List (Nat × Nat)) (ca : Nat × Nat) :
    ∀ p ∈ overlapExpand bAtoms ca, p.1 = ca.1 := by
  intro p hp
  unfold overlapExpand at hp
  by_cases h : (bAtoms.filter (fun cb => cb.2 = ca.2)).isEmpty
  · rw [if_pos h] at hp
    rw [List.mem_singleton.mp hp]
  · rw [if_neg h] at hp
    obtain ⟨_, _, he⟩ := List.mem_map.mp hp
    rw [← he]

theorem overlapExpand_ne_nil (bAtoms : List (Nat × Nat)) (ca : Nat × Nat) :
    overlapExpand bAtoms ca ≠ [] := by
  unfold overlapExpand
  by_cases h : (bAtoms.filter (fun cb => cb.2 = ca.2)).isEmpty
  · rw [if_pos h]
    simp
  · rw [if_neg h]
    simp only [ne_eq, List.map_eq_nil_iff]
    intro hc
    rw [hc] at h
    exact h rfl

/-- When the first-appearance order of chunk ids in `chunk_atoms`
matches the `chunks` row order (in particular every chunk has at least
one membership row), `ChunkOverlap` yields one aligned value per chunk
row. -/
theorem chunkOverlap_eq_map (chunk_b : String) (agg : Agg) (ch : Chunks)
    (b : ChunksData) (hb : ch.corpus.chunkByName chunk_b = .ok b)
    (hAlign : dedupFirst (ch.data.chunk_atoms.map Prod.fst) =
      ch.data.chunks.map (fun r => r.id)) :
    chunkOverlap chunk_b agg ch =
      .ok (ch.data.chunks.map (fun r =>
        aggApply agg (overlapFlags b.chunk_atoms ch.data.chunk_atoms r.id))) := by
  unfold chunkOverlap
  rw [hb]
  simp only [Bind.bind, Except.bind, pure, Except.pure, Except.ok.injEq]
  unfold overlapRows groupByKey
  have hkeys : ((ch.data.chunk_atoms.flatMap (overlapExpand b.chunk_atoms)).map
      Prod.fst) = ch.data.chunk_atoms.flatMap
        (fun ca => (overlapExpand b.chunk_atoms ca).map Prod.fst) :=
    List.map_flatMap ..
  rw [hkeys]
  rw [dedupFirst_flatMap_blocks ch.data.chunk_atoms _ Prod.fst
    (by
      intro ca hca c hc
      obtain ⟨p, hp, hpe⟩ := List.mem_map.mp hc
      rw [← hpe]
      exact overlapExpand_key b.chunk_atoms ca p hp)
    (by
      intro ca _
      simp only [ne_eq, List.map_eq_nil_iff]
      exact overlapExpand_ne_nil b.chunk_atoms ca)]
  rw [hAlign, List.map_map, List.map_map]
  refine List.map_congr_left ?_
  intro r _
  simp only [Function.comp_apply]
  congr 1
  rw [filter_key_flatMap ch.data.chunk_atoms _ Prod.fst
    (fun ca _ p hp => overlapExpand_key b.chunk_atoms ca p hp) r.id]
  unfold overlapFlags overlapRows
  rw [← flatMap_map_out]

/-- `RegexCount` preserves the stringifier's output length when no
string is null. -/
theorem regexCount_length (counter : String → Nat) (strings : List (Option String))
    (h : ∀ s ∈ strings, s.isSome = true) :
    regexCount counter strings = .ok (strings.map (fun s => counter (s.getD ""))) := by
  refine mapM_eq_ok_map _ _ _ ?_
  intro s hs
  obtain ⟨t, ht⟩ := Option.isSome_iff_exists.mp (h s hs)
  rw [ht]
  rfl

/-! ## C1/C9 helpers — ChunkDelimitedStringify structure -/

theorem flatMap_ne_nil {α β : Type} (l : List α) (f : α → List β)
    (hl : l ≠ []) (hf : ∀ x ∈ l, f x ≠ []) : l.flatMap f ≠ [] := by
  cases l with
  | nil => exact absurd rfl hl
  | cons x rest =>
    rw [List.flatMap_cons]
    intro hc
    obtain ⟨h1, -⟩ := List.append_eq_nil.mp hc
    exact hf x (List.mem_cons_self x rest) h1

theorem cdsAtomJoin_ne_nil (ch : Chunks) (ca : Nat × Nat) :
    cdsAtomJoin ch ca ≠ [] := by
  unfold cdsAtomJoin
  by_cases h : (ch.corpus.atoms.rows.filter (fun a => a.id = ca.2)).isEmpty
  · rw [if_pos h]; simp
  · rw [if_neg h]
    simp only [ne_eq, List.map_eq_nil_iff]
    intro hc
    rw [hc] at h
    exact h rfl

theorem cdsBaseRows_ne_nil (ch : Chunks) (cid : Nat) :
    cdsBaseRows ch cid ≠ [] := by
  unfold cdsBaseRows
  by_cases h : (ch.data.chunk_atoms.filter (fun ca => ca.1 = cid)).isEmpty
  · rw [if_pos h]; simp
  · rw [if_neg h]
    refine flatMap_ne_nil _ _ ?_ (fun ca _ => cdsAtomJoin_ne_nil ch ca)
    intro hc
    rw [hc] at h
    exact h rfl

theorem cdsTagExpand_key (bca : List (Nat × Nat)) (kr : Nat × CdsRow) :
    ∀ p ∈ cdsTagExpand bca kr, p.1 = kr.1 := by
  intro p hp
  unfold cdsTagExpand at hp
  cases ha : kr.2.atomId with
  | none =>
    simp only [ha] at hp
    rw [List.mem_singleton.mp hp]
  | some a =>
    simp only [ha] at hp
    by_cases h : (bca.filter (fun cb => cb.2 = a)).isEmpty
    · rw [if_pos h] at hp
      rw [List.mem_singleton.mp hp]
    · rw [if_neg h] at hp
      obtain ⟨_, _, he⟩ := List.mem_map.mp hp
      rw [← he]

theorem cdsTagExpand_ne_nil (bca : List (Nat × Nat)) (kr : Nat × CdsRow) :
    cdsTagExpand bca kr ≠ [] := by
  unfold cdsTagExpand
  cases ha : kr.2.atomId with
  | none => simp
  | some a =>
    simp only []
    by_cases h : (bca.filter (fun cb => cb.2 = a)).isEmpty
    · rw [if_pos h]; simp
    · rw [if_neg h]
      simp only [ne_eq, List.map_eq_nil_iff]
      intro hc
      rw [hc] at h
      exact h rfl

theorem cdsAddTag_append (bca : List (Nat × Nat)) (l1 l2 : List (Nat × CdsRow)) :
    cdsAddTag bca (l1 ++ l2) = cdsAddTag bca l1 ++ cdsAddTag bca l2 :=
  List.flatMap_append ..

theorem cdsFold_append (bcas : List (List (Nat × Nat))) :
    ∀ (l1 l2 : List (Nat × CdsRow)),
      bcas.foldl (fun rows bca => cdsAddTag bca rows) (l1 ++ l2) =
        bcas.foldl (fun rows bca => cdsAddTag bca rows) l1 ++
        bcas.foldl (fun rows bca => cdsAddTag bca rows) l2 := by
  induction bcas with
  | nil => intro l1 l2; rfl
  | cons b bs ih =>
    intro l1 l2
    rw [List.foldl_cons, List.foldl_cons, List.foldl_cons, cdsAddTag_append]
    exact ih (cdsAddTag b l1) (cdsAddTag b l2)

theorem cdsFold_nil (bcas : List (List (Nat × Nat))) :
    bcas.foldl (fun rows bca => cdsAddTag bca rows) [] = [] := by
  induction bcas with
  | nil => rfl
  | cons b bs ih => rw [List.foldl_cons]; exact ih

/-- The enriched rows of one chunk, tags folded in configuration
order. -/
def cdsChunkRows (ch : Chunks) (bcas : List (List (Nat × Nat))) (cid : Nat) :
    List (Nat × CdsRow) :=
  bcas.foldl (fun rows bca => cdsAddTag bca rows)
    ((cdsBaseRows ch cid).map (fun x => (cid, x)))

/-- The whole-frame fold equals the per-chunk folds, concatenated in
`chunks` row order. -/
theorem cdsEnriched_eq_flatMap (ch : Chunks) (bcas : List (List (Nat × Nat))) :
    cdsEnriched ch bcas =
      ch.data.chunks.flatMap (fun r => cdsChunkRows ch bcas r.id) := by
  unfold cdsEnriched cdsChunkRows
  generalize ch.data.chunks = rows
  induction rows with
  | nil => simpa using cdsFold_nil bcas
  | cons r rest ih =>
    rw [List.flatMap_cons, List.flatMap_cons, cdsFold_append]
    congr 1

theorem cdsChunkRows_key (ch : Chunks) (bcas : List (List (Nat × Nat))) (cid : Nat) :
    ∀ p ∈ cdsChunkRows ch bcas cid, p.1 = cid := by
  unfold cdsChunkRows
  have haux : ∀ (bs : List (List (Nat × Nat))) (rows : List (Nat × CdsRow)),
      (∀ p ∈ rows, p.1 = cid) →
      ∀ p ∈ bs.foldl (fun rows bca => cdsAddTag bca rows) rows, p.1 = cid := by
    intro bs
    induction bs with
    | nil => intro rows h; exact h
    | cons b rest ih =>
      intro rows h
      rw [List.foldl_cons]
      refine ih (cdsAddTag b rows) ?_
      intro p hp
      obtain ⟨kr, hkr, hpe⟩ := List.mem_flatMap.mp hp
      rw [cdsTagExpand_key b kr p hpe]
      exact h kr hkr
  refine haux bcas _ ?_
  intro p hp
  obtain ⟨x, _, he⟩ := List.mem_map.mp hp
  rw [← he]

theorem cdsChunkRows_ne_nil (ch : Chunks) (bcas : List (List (Nat × Nat))) (cid : Nat) :
    cdsChunkRows ch bcas cid ≠ [] := by
  unfold cdsChunkRows
  have haux : ∀ (bs : List (List (Nat × Nat))) (rows : List (Nat × CdsRow)),
      rows ≠ [] → bs.foldl (fun rows bca => cdsAddTag bca rows) rows ≠ [] := by
    intro bs
    induction bs with
    | nil => intro rows h; exact h
    | cons b rest ih =>
      intro rows h
      rw [List.foldl_cons]
      exact ih (cdsAddTag b rows)
        (flatMap_ne_nil rows _ h (fun kr _ => cdsTagExpand_ne_nil b kr))
  refine haux bcas _ ?_
  simp only [ne_eq, List.map_eq_nil_iff]
  exact cdsBaseRows_ne_nil ch cid

/-- With pairwise-distinct chunk ids, grouping the enriched frame by
chunk id recovers one group per chunk row, in row order. -/
theorem cdsGrouped (ch : Chunks) (bcas : List (List (Nat × Nat)))
    (hN : (ch.data.chunks.map (fun r => r.id)).Nodup) :
    groupByKey (cdsEnriched ch bcas) =
      ch.data.chunks.map (fun r =>
        (r.id, (cdsChunkRows ch bcas r.id).map Prod.snd)) := by
  rw [cdsEnriched_eq_flatMap]
  exact groupByKey_flatMap_blocks ch.data.chunks _ (fun r => r.id) hN
    (fun r _ p hp => cdsChunkRows_key ch bcas r.id p hp)
    (fun r _ => cdsChunkRows_ne_nil ch bcas r.id)

/-- `ChunkDelimitedStringify`'s per-chunk string value. -/
def cdsChunkValue (delims : List (String × String)) (ad : String) (ch : Chunks)
    (bcas : List (List (Nat × Nat))) (cid : Nat) : String :=
  cdsGroupString (delims.map Prod.snd) ad ((cdsChunkRows ch bcas cid).map Prod.snd)

/-- With the configured chunk types resolvable, the `text`/`ordinal`
columns present and pairwise-distinct chunk ids,
`ChunkDelimitedStringify` yields one aligned string per chunk row. -/
theorem cdsCall_eq_map (ch : Chunks) (delims : List (String × String)) (ad : String)
    (bcas : List (List (Nat × Nat)))
    (hbcas : delims.mapM (fun p => (ch.corpus.chunkByName p.1).map
      (fun d => d.chunk_atoms)) = .ok bcas)
    (hT : ch.corpus.atoms.hasText = true) (hO : ch.corpus.atoms.hasOrdinal = true)
    (hN : (ch.data.chunks.map (fun r => r.id)).Nodup) :
    cdsCall delims ad ch =
      .ok (ch.data.chunks.map (fun r => cdsChunkValue delims ad ch bcas r.id)) := by
  unfold cdsCall
  rw [hbcas]
  simp only [Bind.bind, Except.bind, hT, hO, Bool.not_true, Bool.false_eq_true,
    if_false, pure, Except.pure, Except.ok.injEq]
  rw [cdsGrouped ch bcas hN, List.map_map]
  rfl

/-! ## C1 — attribute expressions: one value per chunk row -/

/-- **C1 (amended).** `SimpleStringify` and `ChunkDelimitedStringify`
return exactly one value per `chunks` row, aligned with the row order
(given the required atom columns, resolvable configured chunk types
and pairwise-distinct chunk ids).  `RegexCount` returns one count per
stringifier output value (a null string raises `TypeError`).
`AtomData` and `ChunkOverlap`, which perform no re-join against the
original chunk id order, only satisfy the contract under additional
conditions: `AtomData` needs every chunk to have at least one joined
member atom, and `ChunkOverlap` needs the first-appearance order of
chunk ids in `chunk_atoms` to coincide with the `chunks` row order
(which also forces every chunk to have a membership row); the
counterexample shows `AtomData` otherwise returns fewer values than
`len(chunks)`. -/
theorem c1_attr_exprs_amended (ch : Chunks) (attrName d : String)
    (delims : List (String × String)) (ad : String) (chunk_b : String) (agg : Agg)
    (counter : String → Nat) (strings : List (Option String))
    (bcas : List (List (Nat × Nat))) (b : ChunksData)
    (hN : (ch.data.chunks.map (fun r => r.id)).Nodup)
    (hT : ch.corpus.atoms.hasText = true)
    (hO : ch.corpus.atoms.hasOrdinal = true)
    (hbcas : delims.mapM (fun p => (ch.corpus.chunkByName p.1).map
      (fun x => x.chunk_atoms)) = .ok bcas)
    (hb : ch.corpus.chunkByName chunk_b = .ok b)
    (hAlign : dedupFirst (ch.data.chunk_atoms.map Prod.fst) =
      ch.data.chunks.map (fun r => r.id))
    (hne : ∀ r ∈ ch.data.chunks, ssChunkAtoms ch r.id ≠ [])
    (hstr : ∀ s ∈ strings, s.isSome = true) :
    simpleStringify d ch = .ok (ch.data.chunks.map (fun r => ssValue d ch r.id)) ∧
    cdsCall delims ad ch =
      .ok (ch.data.chunks.map (fun r => cdsChunkValue delims ad ch bcas r.id)) ∧
    atomData attrName ch =
      ch.data.chunks.map (fun r => atomDataValue attrName ch r.id) ∧
    chunkOverlap chunk_b agg ch =
      .ok (ch.data.chunks.map (fun r =>
        aggApply agg (overlapFlags b.chunk_atoms ch.data.chunk_atoms r.id))) ∧
    regexCount counter strings =
      .ok (strings.map (fun s => counter (s.getD ""))) ∧
    (strings.map (fun s => counter (s.getD ""))).length = strings.length :=
  ⟨simpleStringify_eq_map ch d hT hO hN,
   cdsCall_eq_map ch delims ad bcas hbcas hT hO hN,
   atomData_eq_map attrName ch hN hne,
   chunkOverlap_eq_map chunk_b agg ch b hb hAlign,
   regexCount_length counter strings hstr,
   List.length_map ..⟩

/-- Witness for C1 at the example line chunks. -/
theorem c1_witness :
    simpleStringify "?" exLineChunks =
      .ok (exLineChunks.data.chunks.map (fun r => ssValue "?" exLineChunks r.id)) ∧
    cdsCall [("document", "|")] "?" exLineChunks =
      .ok (exLineChunks.data.chunks.map (fun r =>
        cdsChunkValue [("document", "|")] "?" exLineChunks
          [exDocData.chunk_atoms] r.id)) ∧
    atomData "conf" exLineChunks =
      exLineChunks.data.chunks.map (fun r => atomDataValue "conf" exLineChunks r.id) ∧
    chunkOverlap "document" Agg.count exLineChunks =
      .ok (exLineChunks.data.chunks.map (fun r =>
        aggApply Agg.count (overlapFlags exDocData.chunk_atoms
          exLineChunks.data.chunk_atoms r.id))) ∧
    regexCount (fun s => s.length) [some "ab", some "c"] =
      .ok ([some "ab", some "c"].map (fun s => String.length (s.getD ""))) ∧
    ([some "ab", some "c"].map (fun s => String.length (s.getD ""))).length =
      [some "ab", some "c"].length :=
  c1_attr_exprs_amended exLineChunks "conf" "?" [("document", "|")] "?" "document"
    Agg.count (fun s => s.length) [some "ab", some "c"] [exDocData.chunk_atoms]
    exDocData (by decide) rfl rfl (by decide) (by decide) (by decide) (by decide)
    (by decide)

/-- Counterexample for C1 as stated: over a collection with a
zero-atom chunk, `AtomData` returns only one value for the two chunk
rows — not a sequence of exactly `len(chunks)` values. -/
theorem c1_counterexample :
    (atomData "conf" exEmptyChunks).length = 1 ∧
    exEmptyChunks.data.chunks.length = 2 := by
  constructor
  · decide
  · decide

/-! ## C7 helpers — windows over gap-free ordinals -/

/-- Filtering a list whose `f`-values are the consecutive integers
from `lo` down to a half-open window `[lo + b, lo + b + len)` is
slicing. -/
theorem filter_consec (f : Atom → Int) :
    ∀ (l : List Atom) (lo : Int) (b len : Nat),
      l.map f = (List.range l.length).map (fun i : Nat => lo + (i : Int)) →
      l.filter (fun a => decide (lo + b ≤ f a ∧ f a < lo + b + len)) =
        (l.drop b).take len := by
  intro l
  induction l with
  | nil => intro lo b len _; simp
  | cons a rest ih =>
    intro lo b len h
    simp only [List.length_cons, List.range_succ_eq_map, List.map_cons,
      List.map_map] at h
    rw [List.cons.injEq] at h
    obtain ⟨hhead, htail0⟩ := h
    have hhead2 : f a = lo := by simpa using hhead
    have htail : rest.map f =
        (List.range rest.length).map (fun i : Nat => (lo + 1) + (i : Int)) := by
      rw [htail0]
      refine List.map_congr_left ?_
      intro i _
      simp only [Function.comp_apply]
      push_cast
      ring
    have hrestlb : ∀ x ∈ rest, lo + 1 ≤ f x := by
      intro x hx
      have hmem : f x ∈ rest.map f := List.mem_map_of_mem f hx
      rw [htail] at hmem
      obtain ⟨i, _, hie⟩ := List.mem_map.mp hmem
      omega
    cases b with
    | zero =>
      cases len with
      | zero =>
        rw [List.drop_zero, List.take_zero, List.filter_eq_nil_iff]
        intro x _ hx
        have := of_decide_eq_true hx
        omega
      | succ len2 =>
        rw [List.drop_zero, List.take_succ_cons,
          List.filter_cons_of_pos (by
            refine decide_eq_true ?_
            refine ⟨by omega, by omega⟩)]
        congr 1
        have hih := ih (lo + 1) 0 len2 htail
        rw [List.drop_zero] at hih
        rw [← hih]
        refine List.filter_congr ?_
        intro x hx
        have hlb := hrestlb x hx
        refine decide_eq_decide.mpr ?_
        constructor
        · rintro ⟨h1, h2⟩
          exact ⟨by omega, by omega⟩
        · rintro ⟨h1, h2⟩
          exact ⟨by omega, by omega⟩
    | succ b2 =>
      rw [List.filter_cons_of_neg (by
        simp only [decide_eq_true_eq, not_and, not_lt]
        intro hc
        omega),
        List.drop_succ_cons]
      have hih := ih (lo + 1) b2 len htail
      rw [← hih]
      refine List.filter_congr ?_
      intro x _
      refine decide_eq_decide.mpr ?_
      constructor
      · rintro ⟨h1, h2⟩
        exact ⟨by omega, by omega⟩
      · rintro ⟨h1, h2⟩
        exact ⟨by omega, by omega⟩

theorem map_getLastD {α β : Type} (f : α → β) (l : List α) (d : α) :
    (l.map f).getLastD (f d) = f (l.getLastD d) := by
  induction l generalizing d with
  | nil => rfl
  | cons a rest ih =>
    rw [List.map_cons, List.getLastD_cons, List.getLastD_cons]
    exact ih a

theorem getLastD_range_map (g : Nat → Int) (n : Nat) (d : Int) (h : 1 ≤ n) :
    ((List.range n).map g).getLastD d = g (n - 1) := by
  cases n with
  | zero => omega
  | succ m =>
    rw [List.range_succ, List.map_append]
    simp [List.getLastD_concat]

theorem filterMap_eq_map_of_some {α β : Type} (l : List α) (g : α → Option β)
    (f : α → β) (hgf : ∀ x ∈ l, g x = some (f x)) :
    l.filterMap g = l.map f := by
  induction l with
  | nil => rfl
  | cons x rest ih =>
    rw [List.filterMap_cons, hgf x (List.mem_cons_self x rest), List.map_cons,
      ih (fun y hy => hgf y (List.mem_cons_of_mem x hy))]

/-- The per-group window emission over a bounding group whose atom
ordinals are the `n` consecutive integers starting at `lo`
(`size = s ≥ 1`, `offset = 0`, left-closed windows): exactly
`⌈n / s⌉` chunks, the `k`-th starting at ordinal `lo + k·s` and
holding the `k`-th slice of `s` member atoms (fewer only in the
last). -/
theorem fscGroupChunks_consec (s : Int) (hs : 1 ≤ s) (g : Nat) (atoms : List Atom)
    (lo : Int) (hne : atoms ≠ [])
    (hconsec : atoms.map (fun a => a.ordinal) =
      (List.range atoms.length).map (fun i : Nat => lo + (i : Int))) :
    fscGroupChunks s 0 Closed.left g atoms =
      (List.range ((atoms.length + s.toNat - 1) / s.toNat)).map (fun k : Nat =>
        (hashFsc g (lo + (k : Int) * s),
         ((atoms.map (fun a => a.id)).drop (k * s.toNat)).take s.toNat)) := by
  obtain ⟨a0, rest, rfl⟩ : ∃ a0 rest, atoms = a0 :: rest := by
    cases atoms with
    | nil => exact absurd rfl hne
    | cons x xs => exact ⟨x, xs, rfl⟩
  have hhead : a0.ordinal = lo := by
    have hcons2 := hconsec
    simp only [List.length_cons, List.range_succ_eq_map, List.map_cons,
      List.map_map] at hcons2
    rw [List.cons.injEq] at hcons2
    simpa using hcons2.1
  set atoms := a0 :: rest with hatoms
  have hn1 : 1 ≤ atoms.length := by simp [hatoms]
  set n := atoms.length with hn
  set s' := s.toNat with hs'
  have hs'1 : 1 ≤ s' := by omega
  have hscast : (s' : Int) = s := Int.toNat_of_nonneg (by omega)
  have hlast : (atoms.getLastD a0).ordinal = lo + ((n - 1 : Nat) : Int) := by
    have h1 := map_getLastD (fun a => a.ordinal) atoms a0
    rw [hconsec, getLastD_range_map _ _ _ hn1] at h1
    exact h1.symm
  have hcount : (((atoms.getLastD a0).ordinal - a0.ordinal) / (s + 0)).toNat + 1 =
      (n + s' - 1) / s' := by
    rw [hlast, hhead, add_zero]
    have h2 : lo + ((n - 1 : Nat) : Int) - lo = ((n - 1 : Nat) : Int) := by ring
    rw [h2, ← hscast, ← Int.ofNat_ediv, Int.toNat_ofNat]
    have h3 : n + s' - 1 = (n - 1) + s' := by omega
    rw [h3, Nat.add_div_right _ (by omega)]
  show (windowStarts (s + 0) a0.ordinal (atoms.getLastD a0).ordinal).filterMap _ = _
  unfold windowStarts
  rw [hcount, hhead, List.filterMap_map]
  refine filterMap_eq_map_of_some _ _ _ ?_
  intro k hk
  have hkm : k < (n + s' - 1) / s' := List.mem_range.mp hk
  have hkn : k * s' < n := by
    have h4 : k ≤ (n - 1) / s' := by
      have h3 : n + s' - 1 = (n - 1) + s' := by omega
      rw [h3, Nat.add_div_right _ (by omega)] at hkm
      omega
    have h5 : k * s' ≤ ((n - 1) / s') * s' := Nat.mul_le_mul_right s' h4
    have h6 : ((n - 1) / s') * s' ≤ n - 1 := Nat.div_mul_le_self (n - 1) s'
    omega
  simp only [Function.comp_apply]
  have hwin : ∀ a : Atom, inWindow Closed.left (lo + (k : Int) * (s + 0)) s a.ordinal =
      decide (lo + ((k * s' : Nat) : Int) ≤ a.ordinal ∧
        a.ordinal < lo + ((k * s' : Nat) : Int) + ((s' : Nat) : Int)) := by
    intro a
    unfold inWindow
    refine decide_eq_decide.mpr ?_
    have hks : ((k * s' : Nat) : Int) = (k : Int) * s := by
      push_cast
      rw [hscast]
    rw [add_zero]
    constructor
    · rintro ⟨h1, h2⟩
      refine ⟨by omega, by rw [hscast]; omega⟩
    · rintro ⟨h1, h2⟩
      rw [hscast] at h2
      refine ⟨by omega, by omega⟩
  rw [List.filter_congr (fun a _ => hwin a),
    filter_consec (fun a => a.ordinal) atoms lo (k * s') s' hconsec]
  have hslice_ne : ((atoms.drop (k * s')).take s') ≠ [] := by
    have hlen : ((atoms.drop (k * s')).take s').length = min s' (n - k * s') := by
      rw [List.length_take, List.length_drop, hn]
    intro hc
    rw [hc] at hlen
    simp only [List.length_nil] at hlen
    omega
  rw [if_neg (by
    intro hc
    exact hslice_ne (List.isEmpty_iff.mp hc))]
  simp only [Option.some.injEq, id_eq]
  congr 1
  · rw [add_zero]
  · rw [List.map_take, List.map_drop]

/-! ## C7 — FixedSizeChunk window count -/

/-- **C7 (amended).** Over a corpus with `ordinal` and a bounding
group whose `n` atom ordinals are *consecutive* integers starting at
`lo` (no gaps, no duplicates), `FixedSizeChunk(size=s, offset=0,
closed="left")` emits exactly `⌈n/s⌉` chunks for that bounding chunk,
with windows starting at the group's minimum ordinal and advancing by
`s`; the `k`-th chunk holds the `k`-th run of `s` member atoms, so
every chunk has exactly `s` atoms except possibly the last.  (With
gaps in the ordinals the count differs — see the counterexample.) -/
theorem c7_fixedSizeChunk_amended (c : Corpus) (constraint : String) (s : Int)
    (bd : ChunksData) (g : Nat) (atoms : List Atom) (lo : Int)
    (hO : c.atoms.hasOrdinal = true) (hbd : c.chunkByName constraint = .ok bd)
    (hs : 1 ≤ s) (hne : atoms ≠ [])
    (hg : (g, atoms) ∈ groupByKey ((boundJoined bd c).insertionSort constraintOrdLe))
    (hconsec : atoms.map (fun a => a.ordinal) =
      (List.range atoms.length).map (fun i : Nat => lo + (i : Int))) :
    ∃ out, fixedSizeChunk constraint s 0 Closed.left c = .ok out ∧
      fscGroupChunks s 0 Closed.left g atoms =
        (List.range ((atoms.length + s.toNat - 1) / s.toNat)).map (fun k : Nat =>
          (hashFsc g (lo + (k : Int) * s),
           ((atoms.map (fun a => a.id)).drop (k * s.toNat)).take s.toNat)) ∧
      (∀ k : Nat, k < (atoms.length + s.toNat - 1) / s.toNat →
        (((atoms.map (fun a => a.id)).drop (k * s.toNat)).take s.toNat).length =
          min s.toNat (atoms.length - k * s.toNat)) ∧
      (∀ k : Nat, k + 1 < (atoms.length + s.toNat - 1) / s.toNat →
        (((atoms.map (fun a => a.id)).drop (k * s.toNat)).take s.toNat).length =
          s.toNat) ∧
      ∀ e ∈ fscGroupChunks s 0 Closed.left g atoms,
        (⟨e.1, []⟩ : ChunkRow) ∈ out.data.chunks := by
  have hs'1 : 1 ≤ s.toNat := by omega
  refine ⟨⟨c, ⟨((groupByKey ((boundJoined bd c).insertionSort
      constraintOrdLe)).flatMap (fun g2 =>
        fscGroupChunks s 0 Closed.left g2.1 g2.2)).map (fun e => ⟨e.1, []⟩),
    ((groupByKey ((boundJoined bd c).insertionSort constraintOrdLe)).flatMap
      (fun g2 => fscGroupChunks s 0 Closed.left g2.1 g2.2)).flatMap
        (fun e => e.2.map (fun a => (e.1, a)))⟩⟩, ?_, ?_, ?_, ?_, ?_⟩
  · simp [fixedSizeChunk, hO, hbd, show ¬(s + 0 ≤ 0) by omega, Bind.bind,
      Except.bind, throw, throwThe, MonadExceptOf.throw, pure, Except.pure]
    omega
  · exact fscGroupChunks_consec s hs g atoms lo hne hconsec
  · intro k _
    rw [List.length_take, List.length_drop, List.length_map]
  · intro k hk
    set s' := s.toNat with hs'
    set n := atoms.length with hn
    have h3 : n + s' - 1 = (n - 1) + s' := by
      have hn1 : 1 ≤ n := by
        rw [hn]
        cases atoms with
        | nil => exact absurd rfl hne
        | cons x xs => simp
      omega
    rw [h3, Nat.add_div_right _ (by omega)] at hk
    have h4 : k + 1 ≤ (n - 1) / s' := by omega
    have h5 : (k + 1) * s' ≤ ((n - 1) / s') * s' := Nat.mul_le_mul_right s' h4
    have h6 : ((n - 1) / s') * s' ≤ n - 1 := Nat.div_mul_le_self (n - 1) s'
    rw [List.length_take, List.length_drop, List.length_map]
    have : s' + k * s' ≤ n - 1 := by
      have : (k + 1) * s' = k * s' + s' := by ring
      omega
    omega
  · intro e he
    refine List.mem_map.mpr ⟨e, ?_, rfl⟩
    exact List.mem_flatMap.mpr ⟨(g, atoms), hg, he⟩

/-- A corpus whose single bounding chunk holds two atoms with a *gap*
in their ordinals (0 and 2). -/
def exGapCorpus : Corpus :=
  ⟨⟨true, true, [⟨1, 0, "a", []⟩, ⟨2, 2, "b", []⟩]⟩,
   [("document", ⟨[⟨301, []⟩], [(301, 1), (301, 2)]⟩)]⟩

/-- Counterexample for C7 as stated: a bounding chunk with `n = 2`
atoms whose ordinals have a gap produces `2` windows under
`size = 2, offset = 0, closed = "left"`, not `⌈2/2⌉ = 1` — the window
grid follows the ordinal axis, not the atom count. -/
theorem c7_counterexample :
    (fixedSizeChunk "document" 2 0 Closed.left exGapCorpus).map
      (fun out => out.data.chunks.length) = .ok 2 ∧
    (2 : Nat) ≠ (2 + 2 - 1) / 2 := by
  constructor
  · decide
  · decide

/-- Witness for C7 at the example corpus (three consecutive ordinals,
`s = 2`: two windows of sizes 2 and 1). -/
theorem c7_witness :
    ∃ out, fixedSizeChunk "document" 2 0 Closed.left exCorpus = .ok out ∧
      fscGroupChunks 2 0 Closed.left 301 exAtoms.rows =
        (List.range ((exAtoms.rows.length + (2 : Int).toNat - 1) /
            (2 : Int).toNat)).map (fun k : Nat =>
          (hashFsc 301 (1 + (k : Int) * 2),
           ((exAtoms.rows.map (fun a => a.id)).drop (k * (2 : Int).toNat)).take
             (2 : Int).toNat)) ∧
      (∀ k : Nat, k < (exAtoms.rows.length + (2 : Int).toNat - 1) / (2 : Int).toNat →
        (((exAtoms.rows.map (fun a => a.id)).drop (k * (2 : Int).toNat)).take
          (2 : Int).toNat).length =
          min (2 : Int).toNat (exAtoms.rows.length - k * (2 : Int).toNat)) ∧
      (∀ k : Nat, k + 1 < (exAtoms.rows.length + (2 : Int).toNat - 1) /
          (2 : Int).toNat →
        (((exAtoms.rows.map (fun a => a.id)).drop (k * (2 : Int).toNat)).take
          (2 : Int).toNat).length = (2 : Int).toNat) ∧
      ∀ e ∈ fscGroupChunks 2 0 Closed.left 301 exAtoms.rows,
        (⟨e.1, []⟩ : ChunkRow) ∈ out.data.chunks :=
  c7_fixedSizeChunk_amended exCorpus "document" 2 exDocData 301 exAtoms.rows 1
    rfl (by decide) (by decide) (by decide) (by decide) (by decide)

/-! ## C8 helpers -/

theorem mem_groupByKey_val {κ β : Type} [DecidableEq κ] (l : List (κ × β)) {k : κ}
    {vs : List β} (h : (k, vs) ∈ groupByKey l) :
    vs = (l.filter (fun p => p.1 = k)).map Prod.snd := by
  unfold groupByKey at h
  obtain ⟨k2, _, heq⟩ := List.mem_map.mp h
  have h1 : k2 = k := congrArg Prod.fst heq
  subst h1
  exact (congrArg Prod.snd heq).symm

theorem hashRmc_inj {g g2 : Nat} {sp sp2 : Nat × Nat}
    (h : hashRmc g sp = hashRmc g2 sp2) : g = g2 ∧ sp = sp2 := by
  unfold hashRmc at h
  obtain ⟨h1, h2⟩ := Nat.pair_eq_pair.mp h
  obtain ⟨h3, h4⟩ := Nat.pair_eq_pair.mp h2
  refine ⟨h1, ?_⟩
  obtain ⟨a, b⟩ := sp
  obtain ⟨a2, b2⟩ := sp2
  simp only at h3 h4
  rw [h3, h4]

theorem startOffsets_mem_id :
    ∀ (atoms : List Atom) (acc : Nat) (p : Nat × Nat),
      p ∈ startOffsets atoms acc → p.1 ∈ atoms.map (fun a => a.id) := by
  intro atoms
  induction atoms with
  | nil => intro acc p hp; exact absurd hp (List.not_mem_nil p)
  | cons a rest ih =>
    intro acc p hp
    rw [show startOffsets (a :: rest) acc =
      (a.id, acc) :: startOffsets rest (acc + a.text.length + 1) from rfl] at hp
    rcases List.mem_cons.mp hp with he | hm
    · rw [he]
      exact List.mem_map.mpr ⟨a, List.mem_cons_self a rest, rfl⟩
    · exact List.mem_cons_of_mem _ (ih (acc + a.text.length + 1) p hm)

theorem startOffsets_unique :
    ∀ (atoms : List Atom) (acc : Nat),
      (atoms.map (fun a => a.id)).Nodup →
      ∀ p ∈ startOffsets atoms acc, ∀ q ∈ startOffsets atoms acc,
        p.1 = q.1 → p = q := by
  intro atoms
  induction atoms with
  | nil => intro acc _ p hp; exact absurd hp (List.not_mem_nil p)
  | cons a rest ih =>
    intro acc hnd p hp q hq hpq
    rw [List.map_cons, List.nodup_cons] at hnd
    rw [show startOffsets (a :: rest) acc =
      (a.id, acc) :: startOffsets rest (acc + a.text.length + 1) from rfl]
      at hp hq
    rcases List.mem_cons.mp hp with hpe | hpm <;>
      rcases List.mem_cons.mp hq with hqe | hqm
    · rw [hpe, hqe]
    · exfalso
      rw [hpe] at hpq
      have := startOffsets_mem_id rest _ q hqm
      rw [← hpq] at this
      exact hnd.1 this
    · exfalso
      rw [hqe] at hpq
      have := startOffsets_mem_id rest _ p hpm
      rw [hpq] at this
      exact hnd.1 this
    · exact ih _ hnd.2 p hpm q hqm hpq

/-! ## C8 — RegexMatchChunk membership -/

/-- **C8.** For a corpus with `ordinal` and `text`, in the
`RegexMatchChunk` output: (i) every emitted chunk has at least one
member atom; (ii) for each bounding group (whose atom ids are
pairwise distinct), each match span of the group's search string, and
each atom with its start offset, the atom belongs to the match's chunk
iff its start offset lies in the *closed* interval
`[match start, match end]`; and (iii) a match none of whose atom start
offsets lies in range contributes no chunk at all, so zero-atom chunks
are never emitted. -/
theorem c8_regexMatchChunk (c : Corpus) (matcher : String → List (Nat × Nat))
    (constraint : String) (bd : ChunksData) (out : Chunks)
    (hO : c.atoms.hasOrdinal = true) (hT : c.atoms.hasText = true)
    (hbd : c.chunkByName constraint = .ok bd)
    (hout : regexMatchChunk matcher constraint c = .ok out) :
    (∀ r ∈ out.data.chunks, ∃ a, (r.id, a) ∈ out.data.chunk_atoms) ∧
    (∀ g atoms,
      (g, atoms) ∈ groupByKey ((boundJoined bd c).insertionSort constraintOrdLe) →
      (atoms.map (fun a => a.id)).Nodup →
      ∀ sp ∈ matcher (rmcSearchString atoms), ∀ p ∈ startOffsets atoms 0,
        ((hashRmc g sp, p.1) ∈ out.data.chunk_atoms ↔
          (sp.1 ≤ p.2 ∧ p.2 ≤ sp.2))) ∧
    (∀ g atoms,
      (g, atoms) ∈ groupByKey ((boundJoined bd c).insertionSort constraintOrdLe) →
      ∀ sp ∈ matcher (rmcSearchString atoms),
        (∀ p ∈ startOffsets atoms 0, ¬(sp.1 ≤ p.2 ∧ p.2 ≤ sp.2)) →
        ∀ r ∈ out.data.chunks, r.id ≠ hashRmc g sp) := by
  set sorted := (boundJoined bd c).insertionSort constraintOrdLe with hsorted
  set rows := (groupByKey sorted).flatMap (fun g2 =>
    let idx := startOffsets g2.2 0
    (matcher (rmcSearchString g2.2)).flatMap (fun sp =>
      (idx.filter (fun p => sp.1 ≤ p.2 ∧ p.2 ≤ sp.2)).map
        (fun p => (hashRmc g2.1 sp, p.1)))) with hrows
  have hout2 : out = ⟨c, ⟨(groupByKey rows).map (fun e => ⟨e.1, []⟩),
      (groupByKey rows).flatMap (fun e => e.2.map (fun a => (e.1, a)))⟩⟩ := by
    have h := hout
    simp only [regexMatchChunk, hO, hT, hbd, Bool.not_true, Bool.false_eq_true,
      if_false, Bind.bind, Except.bind, pure, Except.pure, Except.ok.injEq] at h
    exact h.symm
  -- membership in the final chunk_atoms is membership in `rows`
  have hmemCA : ∀ (k a : Nat), (k, a) ∈ out.data.chunk_atoms ↔ (k, a) ∈ rows := by
    intro k a
    rw [hout2]
    exact mem_flatten_groupByKey rows k a
  -- membership in `rows`, unfolded
  have hmemRows : ∀ (k a : Nat), (k, a) ∈ rows ↔
      ∃ g2 ∈ groupByKey sorted, ∃ sp ∈ matcher (rmcSearchString g2.2),
        ∃ p ∈ startOffsets g2.2 0,
          (sp.1 ≤ p.2 ∧ p.2 ≤ sp.2) ∧ hashRmc g2.1 sp = k ∧ p.1 = a := by
    intro k a
    rw [hrows]
    simp only [List.mem_flatMap, List.mem_map, List.mem_filter,
      decide_eq_true_eq]
    constructor
    · rintro ⟨g2, hg2, sp, hsp, p, ⟨hpmem, hpred⟩, heq⟩
      exact ⟨g2, hg2, sp, hsp, p, hpmem, hpred,
        congrArg Prod.fst heq, congrArg Prod.snd heq⟩
    · rintro ⟨g2, hg2, sp, hsp, p, hpmem, hpred, hk, ha⟩
      exact ⟨g2, hg2, sp, hsp, p, ⟨hpmem, hpred⟩, by rw [hk, ha]⟩
  refine ⟨?_, ?_, ?_⟩
  · -- every chunk row has a member atom
    intro r hr
    rw [hout2] at hr
    obtain ⟨e, he, hre⟩ := List.mem_map.mp hr
    obtain ⟨k, vs⟩ := e
    have hvs : vs ≠ [] := groupByKey_val_ne_nil rows he
    obtain ⟨a, ha⟩ := List.exists_mem_of_ne_nil vs hvs
    refine ⟨a, ?_⟩
    rw [hout2]
    have : r.id = k := by rw [← hre]
    rw [this]
    exact List.mem_flatMap.mpr ⟨(k, vs), he, List.mem_map.mpr ⟨a, ha, rfl⟩⟩
  · -- membership iff the start offset is in the closed span
    intro g atoms hg hnd sp hsp p hp
    rw [hmemCA, hmemRows]
    constructor
    · rintro ⟨g2, hg2, sp2, hsp2, q, hq, hqpred, hk, ha⟩
      obtain ⟨hgeq, hspeq⟩ := hashRmc_inj hk
      subst hgeq
      subst hspeq
      -- same key, so the same group
      have hveq : g2.2 = atoms := by
        have h1 := mem_groupByKey_val sorted hg2
        obtain ⟨ga, gb⟩ := g2
        simp only at h1 ⊢
        have h2 := mem_groupByKey_val sorted hg
        rw [h1, h2]
      rw [hveq] at hq
      have hqp : q = p := startOffsets_unique atoms 0 hnd q hq p hp ha
      rw [hqp] at hqpred
      exact hqpred
    · intro hpred
      exact ⟨(g, atoms), hg, sp, hsp, p, hp, hpred, rfl, rfl⟩
  · -- a match with no in-range offsets yields no chunk
    intro g atoms hg sp hsp hnone r hr heq
    rw [hout2] at hr
    obtain ⟨e, he, hre⟩ := List.mem_map.mp hr
    obtain ⟨k, vs⟩ := e
    have hk : k = hashRmc g sp := by
      have : r.id = k := by rw [← hre]
      rw [← this, heq]
    subst hk
    have hvs : vs ≠ [] := groupByKey_val_ne_nil rows he
    obtain ⟨a, ha⟩ := List.exists_mem_of_ne_nil vs hvs
    have hmem : (hashRmc g sp, a) ∈ rows := by
      have h1 := mem_groupByKey_val rows he
      rw [h1] at ha
      obtain ⟨q, hq, hqa⟩ := List.mem_map.mp ha
      have hq1 : q.1 = hashRmc g sp := of_decide_eq_true (List.mem_filter.mp hq).2
      obtain ⟨qa, qb⟩ := q
      simp only at hq1 hqa
      subst hq1
      subst hqa
      exact (List.mem_filter.mp hq).1
    obtain ⟨g2, hg2, sp2, hsp2, q, hq, hqpred, hk2, -⟩ := (hmemRows _ _).mp hmem
    obtain ⟨hgeq, hspeq⟩ := hashRmc_inj hk2
    subst hgeq
    subst hspeq
    have hveq : g2.2 = atoms := by
      have h1 := mem_groupByKey_val sorted hg2
      have h2 := mem_groupByKey_val sorted hg
      rw [h1, h2]
    rw [hveq] at hq
    exact hnone q hq hqpred

/-- A concrete regex engine for the witness: one match span `[4, 9]`
on the example document's search string. -/
def exMatcher : String → List (Nat × Nat) :=
  fun s => if s = "The quick fox" then [(4, 9)] else []

/-- The `RegexMatchChunk` output on the example corpus under
`exMatcher`: one chunk holding the single atom whose start offset (4)
falls inside the span. -/
def exRmcOut : Chunks :=
  ⟨exCorpus, ⟨[⟨hashRmc 301 (4, 9), []⟩], [(hashRmc 301 (4, 9), 2)]⟩⟩

/-- Witness for C8 at the example corpus. -/
theorem c8_witness :
    (∀ r ∈ exRmcOut.data.chunks, ∃ a, (r.id, a) ∈ exRmcOut.data.chunk_atoms) ∧
    (∀ g atoms,
      (g, atoms) ∈ groupByKey ((boundJoined exDocData exCorpus).insertionSort
        constraintOrdLe) →
      (atoms.map (fun a => a.id)).Nodup →
      ∀ sp ∈ exMatcher (rmcSearchString atoms), ∀ p ∈ startOffsets atoms 0,
        ((hashRmc g sp, p.1) ∈ exRmcOut.data.chunk_atoms ↔
          (sp.1 ≤ p.2 ∧ p.2 ≤ sp.2))) ∧
    (∀ g atoms,
      (g, atoms) ∈ groupByKey ((boundJoined exDocData exCorpus).insertionSort
        constraintOrdLe) →
      ∀ sp ∈ exMatcher (rmcSearchString atoms),
        (∀ p ∈ startOffsets atoms 0, ¬(sp.1 ≤ p.2 ∧ p.2 ≤ sp.2)) →
        ∀ r ∈ exRmcOut.data.chunks, r.id ≠ hashRmc g sp) :=
  c8_regexMatchChunk exCorpus exMatcher "document" exDocData exRmcOut
    rfl rfl (by decide) (by decide)

/-! ## C9 — ChunkDelimitedStringify vs the spec's description -/

instance : Inhabited Atom := ⟨⟨0, 0, "", []⟩⟩

/-- The id of the (at most one) chunk of a listed type containing the
atom. -/
def atomTag (bca : List (Nat × Nat)) (aid : Nat) : Option Nat :=
  (bca.find? (fun cb => cb.2 = aid)).map Prod.fst

/-- Modelled from the spec: scanning the configured list in order, the
first chunk type whose chunk id differs between the two adjacent atoms
determines the delimiter; if none differs, the atom delimiter is
used. -/
def specDelim : List (String × Option Nat × Option Nat) → String → String
  | [], ad => ad
  | (d, t1, t2) :: rest, ad => if t1 ≠ t2 then d else specDelim rest ad

/-- Modelled from the spec: each atom's text followed by the boundary
delimiter towards its ordinal successor; the final atom is followed by
nothing. -/
def specJoin (ds : List String) (ad : String) (tagf : Nat → List (Option Nat)) :
    List Atom → String
  | [] => ""
  | [a] => a.text
  | a :: b :: rest =>
    a.text ++ specDelim (ds.zip ((tagf a.id).zip (tagf b.id))) ad ++
      specJoin ds ad tagf (b :: rest)

/-- The fully-resolved enriched row of an atom. -/
def rowFromAtom (tagf : Nat → List (Option Nat)) (a : Atom) : CdsRow :=
  ⟨some a.id, some a.ordinal, some a.text, tagf a.id⟩

theorem strFoldlAppend (l : List String) :
    ∀ (acc : String), l.foldl (fun a b => a ++ b) acc =
      acc ++ l.foldl (fun a b => a ++ b) "" := by
  induction l with
  | nil => intro acc; simp
  | cons s rest ih =>
    intro acc
    rw [List.foldl_cons, List.foldl_cons, ih (acc ++ s), ih ("" ++ s)]
    simp [String.append_assoc]

theorem strJoin_cons (s : String) (l : List String) :
    String.join (s :: l) = s ++ String.join l := by
  show (s :: l).foldl (fun a b => a ++ b) "" = _
  rw [List.foldl_cons, strFoldlAppend]
  rfl

theorem pickDelim_none_snd (ad : String) :
    ∀ (L : List (String × Option Nat × Option Nat)),
      (∀ x ∈ L, x.2.2 = none) → pickDelim L true ad = "" := by
  intro L
  induction L with
  | nil => intro _; rfl
  | cons x rest ih =>
    intro h
    obtain ⟨d, t1, t2⟩ := x
    have ht2 : t2 = none := h (d, t1, t2) (List.mem_cons_self _ _)
    subst ht2
    show (if tagNe t1 none then d else pickDelim rest true ad) = ""
    have : tagNe t1 none = false := by cases t1 <;> rfl
    rw [this]
    simp only [Bool.false_eq_true, if_false]
    exact ih (fun y hy => h y (List.mem_cons_of_mem _ hy))

theorem pickDelim_eq_specDelim (ad : String) :
    ∀ (L : List (String × Option Nat × Option Nat)),
      (∀ x ∈ L, (x.2.1).isSome = true ∧ (x.2.2).isSome = true) →
      pickDelim L false ad = specDelim L ad := by
  intro L
  induction L with
  | nil => intro _; rfl
  | cons x rest ih =>
    intro h
    obtain ⟨d, t1, t2⟩ := x
    obtain ⟨h1, h2⟩ := h (d, t1, t2) (List.mem_cons_self _ _)
    obtain ⟨v1, hv1⟩ := Option.isSome_iff_exists.mp h1
    obtain ⟨v2, hv2⟩ := Option.isSome_iff_exists.mp h2
    subst hv1
    subst hv2
    show (if tagNe (some v1) (some v2) then d else pickDelim rest false ad) =
      (if some v1 ≠ some v2 then d else specDelim rest ad)
    have hrest := ih (fun y hy => h y (List.mem_cons_of_mem _ hy))
    by_cases hv : v1 = v2
    · subst hv
      have : tagNe (some v1) (some v1) = false := by
        show decide (v1 ≠ v1) = false
        simp
      rw [this]
      simp [hrest]
    · have : tagNe (some v1) (some v2) = true := by
        show decide (v1 ≠ v2) = true
        simp [hv]
      rw [this]
      simp [hv]

theorem find?_eq_head_filter {α : Type} (p : α → Bool) :
    ∀ (l : List α), l.find? p = (l.filter p).head? := by
  intro l
  induction l with
  | nil => rfl
  | cons x rest ih =>
    by_cases hx : p x
    · rw [List.find?_cons_of_pos _ hx, List.filter_cons_of_pos hx]
      rfl
    · rw [List.find?_cons_of_neg _ (by simpa using hx),
        List.filter_cons_of_neg (by simpa using hx)]
      exact ih

theorem flatMap_eq_map_of_singleton {α β : Type} (l : List α) (G : α → List β)
    (h : α → β) (hG : ∀ x ∈ l, G x = [h x]) : l.flatMap G = l.map h := by
  induction l with
  | nil => rfl
  | cons x rest ih =>
    rw [List.flatMap_cons, hG x (List.mem_cons_self x rest), List.map_cons,
      ih (fun y hy => hG y (List.mem_cons_of_mem x hy))]
    rfl

/-- The (unique, under the join hypotheses) atom row matched by a
membership row. -/
def joinedAtom (ch : Chunks) (ca : Nat × Nat) : Atom :=
  (ch.corpus.atoms.rows.filter (fun x => x.id = ca.2)).headD default

theorem joinedAtom_id (ch : Chunks) (ca : Nat × Nat)
    (h : (ch.corpus.atoms.rows.filter (fun x => x.id = ca.2)).length = 1) :
    (joinedAtom ch ca).id = ca.2 := by
  obtain ⟨a, ha⟩ := List.length_eq_one.mp h
  have hmem : a ∈ ch.corpus.atoms.rows.filter (fun x => x.id = ca.2) := by
    rw [ha]
    exact List.mem_singleton.mpr rfl
  have := of_decide_eq_true (List.mem_filter.mp hmem).2
  unfold joinedAtom
  rw [ha]
  exact this

theorem cdsItems_singleton (ds : List String) (ad : String) (r : CdsRow) :
    cdsItems ds ad [r] =
      [(r.ordinal, r.text.map (fun t => t ++ cdsRowDelim ds ad r none true))] := rfl

theorem cdsItems_cons₂ (ds : List String) (ad : String) (r r2 : CdsRow)
    (rest : List CdsRow) :
    cdsItems ds ad (r :: r2 :: rest) =
      (r.ordinal, r.text.map (fun t => t ++ cdsRowDelim ds ad r (some r2) false)) ::
        cdsItems ds ad (r2 :: rest) := rfl

/-- Folding the tag joins over rows whose atom ids are all resolved,
when every configured membership table matches each atom exactly once,
appends one tag per configured type to every row. -/
theorem cdsFold_tags (cid : Nat) (mems : List (Nat × Nat)) :
    ∀ (bs : List (List (Nat × Nat))) (f0 : Nat × Nat → CdsRow),
      (∀ ca ∈ mems, (f0 ca).atomId = some ca.2) →
      (∀ bca ∈ bs, ∀ ca ∈ mems, (bca.filter (fun x => x.2 = ca.2)).length = 1) →
      bs.foldl (fun rows bca => cdsAddTag bca rows)
          (mems.map (fun ca => (cid, f0 ca))) =
        mems.map (fun ca => (cid,
          { f0 ca with
            tags := (f0 ca).tags ++ bs.map (fun bca => atomTag bca ca.2) })) := by
  intro bs
  induction bs with
  | nil =>
    intro f0 _ _
    refine (List.map_congr_left ?_).symm
    intro ca _
    simp
  | cons b rest ih =>
    intro f0 hf0 hb
    rw [List.foldl_cons]
    have hstep : cdsAddTag b (mems.map (fun ca => (cid, f0 ca))) =
        mems.map (fun ca =>
          (cid, { f0 ca with tags := (f0 ca).tags ++ [atomTag b ca.2] })) := by
      unfold cdsAddTag
      rw [List.flatMap_map]
      refine flatMap_eq_map_of_singleton mems _ _ ?_
      intro ca hca
      show cdsTagExpand b (cid, f0 ca) = _
      obtain ⟨cb, hcb⟩ := List.length_eq_one.mp (hb b (List.mem_cons_self b rest) ca hca)
      have hatom : atomTag b ca.2 = some cb.1 := by
        unfold atomTag
        rw [find?_eq_head_filter, hcb]
        rfl
      unfold cdsTagExpand
      simp only [hf0 ca hca, hcb, List.isEmpty_cons, Bool.false_eq_true, if_false,
        List.map_cons, List.map_nil, hatom]
    rw [hstep, ih (fun ca => { f0 ca with tags := (f0 ca).tags ++ [atomTag b ca.2] })
      (fun ca hca => hf0 ca hca)
      (fun bca hbca ca hca => hb bca (List.mem_cons_of_mem b hbca) ca hca)]
    refine List.map_congr_left ?_
    intro ca _
    simp [List.append_assoc]

/-- Folding the tag joins over the single all-null row of an empty
chunk appends one null tag per configured type. -/
theorem cdsFold_nullrow (cid : Nat) :
    ∀ (bs : List (List (Nat × Nat))) (r0 : CdsRow), r0.atomId = none →
      bs.foldl (fun rows bca => cdsAddTag bca rows) [(cid, r0)] =
        [(cid, { r0 with
          tags := r0.tags ++ bs.map (fun _ => (none : Option Nat)) })] := by
  intro bs
  induction bs with
  | nil =>
    intro r0 _
    simp
  | cons b rest ih =>
    intro r0 h0
    rw [List.foldl_cons]
    have hstep : cdsAddTag b [(cid, r0)] =
        [(cid, { r0 with tags := r0.tags ++ [none] })] := by
      unfold cdsAddTag cdsTagExpand
      simp only [List.flatMap_cons, List.flatMap_nil, List.append_nil, h0]
    rw [hstep, ih { r0 with tags := r0.tags ++ [none] } h0]
    simp [List.append_assoc]

/-- With a non-empty membership list whose atom joins are all
singletons, the base rows are one fully-resolved row per membership
row. -/
theorem cdsBaseRows_eq (ch : Chunks) (cid : Nat)
    (hne : (ch.data.chunk_atoms.filter (fun ca => ca.1 = cid)).isEmpty = false)
    (H2 : ∀ ca ∈ ch.data.chunk_atoms.filter (fun ca => ca.1 = cid),
      (ch.corpus.atoms.rows.filter (fun x => x.id = ca.2)).length = 1) :
    cdsBaseRows ch cid = (ch.data.chunk_atoms.filter (fun ca => ca.1 = cid)).map
      (fun ca => ⟨some ca.2, some (joinedAtom ch ca).ordinal,
        some (joinedAtom ch ca).text, []⟩) := by
  unfold cdsBaseRows
  rw [if_neg (by rw [hne]; exact Bool.false_ne_true)]
  refine flatMap_eq_map_of_singleton _ _ _ ?_
  intro ca hca
  obtain ⟨a, ha⟩ := List.length_eq_one.mp (H2 ca hca)
  have hj : joinedAtom ch ca = a := by
    unfold joinedAtom
    rw [ha]
    rfl
  unfold cdsAtomJoin
  simp only [ha, List.isEmpty_cons, Bool.false_eq_true, if_false, List.map_cons,
    List.map_nil, hj]

/-- With singleton atom joins, the member atoms of a chunk are one
atom per membership row. -/
theorem ssChunkAtoms_eq (ch : Chunks) (cid : Nat)
    (H2 : ∀ ca ∈ ch.data.chunk_atoms.filter (fun ca => ca.1 = cid),
      (ch.corpus.atoms.rows.filter (fun x => x.id = ca.2)).length = 1) :
    ssChunkAtoms ch cid =
      (ch.data.chunk_atoms.filter (fun ca => ca.1 = cid)).map (joinedAtom ch) := by
  unfold ssChunkAtoms
  refine flatMap_eq_map_of_singleton _ _ _ ?_
  intro ca hca
  obtain ⟨a, ha⟩ := List.length_eq_one.mp (H2 ca hca)
  have hj : joinedAtom ch ca = a := by
    unfold joinedAtom
    rw [ha]
    rfl
  rw [ha, hj]

/-- The sort keys of the group items are the atoms' ordinals in row
order. -/
theorem cdsItems_keys (ds : List String) (ad : String)
    (tagf : Nat → List (Option Nat)) :
    ∀ (atoms : List Atom),
      (cdsItems ds ad (atoms.map (rowFromAtom tagf))).map Prod.fst =
        atoms.map (fun a => some a.ordinal) := by
  intro atoms
  induction atoms with
  | nil => rfl
  | cons a rest ih =>
    cases rest with
    | nil => rfl
    | cons b rest2 =>
      show (some a.ordinal) ::
          (cdsItems ds ad ((b :: rest2).map (rowFromAtom tagf))).map Prod.fst =
        (some a.ordinal) :: (b :: rest2).map (fun a => some a.ordinal)
      rw [ih]

/-- Joining the (unsorted) items of fully-resolved rows realizes the
spec's text/delimiter interleaving, provided every tag is non-null. -/
theorem cdsItems_join (ds : List String) (ad : String)
    (tagf : Nat → List (Option Nat)) :
    ∀ (atoms : List Atom),
      (∀ a ∈ atoms, ∀ t ∈ tagf a.id, t.isSome = true) →
      String.join ((cdsItems ds ad (atoms.map (rowFromAtom tagf))).filterMap
        Prod.snd) = specJoin ds ad tagf atoms := by
  intro atoms
  induction atoms with
  | nil => intro _; rfl
  | cons a rest ih =>
    intro hsome
    cases rest with
    | nil =>
      have hD : pickDelim (ds.zip ((tagf a.id).zip
          (List.replicate ds.length none))) true ad = "" := by
        refine pickDelim_none_snd ad _ ?_
        intro x hx
        obtain ⟨d, t1, t2⟩ := x
        exact List.eq_of_mem_replicate (List.of_mem_zip (List.of_mem_zip hx).2).2
      show String.join [a.text ++ pickDelim (ds.zip ((tagf a.id).zip
          (List.replicate ds.length none))) true ad] = a.text
      rw [hD, strJoin_cons]
      show a.text ++ "" ++ "" = a.text
      simp
    | cons b rest2 =>
      have hD : pickDelim (ds.zip ((tagf a.id).zip (tagf b.id))) false ad =
          specDelim (ds.zip ((tagf a.id).zip (tagf b.id))) ad := by
        refine pickDelim_eq_specDelim ad _ ?_
        intro x hx
        obtain ⟨d, t1, t2⟩ := x
        have hx2 := (List.of_mem_zip hx).2
        exact ⟨hsome a (List.mem_cons_self a (b :: rest2)) t1 (List.of_mem_zip hx2).1,
          hsome b (List.mem_cons_of_mem a (List.mem_cons_self b rest2)) t2
            (List.of_mem_zip hx2).2⟩
      show String.join ((a.text ++ pickDelim (ds.zip ((tagf a.id).zip (tagf b.id)))
            false ad) ::
          (cdsItems ds ad ((b :: rest2).map (rowFromAtom tagf))).filterMap
            Prod.snd) =
        specJoin ds ad tagf (a :: b :: rest2)
      rw [strJoin_cons, ih (fun x hx => hsome x (List.mem_cons_of_mem a hx)), hD]
      rfl

/-- When the rows come from atoms in strictly increasing ordinal
order, the stable sort leaves the items unchanged. -/
theorem cdsItems_sorted_eq (ds : List String) (ad : String)
    (tagf : Nat → List (Option Nat)) (atoms : List Atom)
    (hchain : List.Chain' (fun x y : Atom => x.ordinal < y.ordinal) atoms) :
    (cdsItems ds ad (atoms.map (rowFromAtom tagf))).insertionSort
        (fun a b => nullsFirstLe a.1 b.1) =
      cdsItems ds ad (atoms.map (rowFromAtom tagf)) := by
  refine List.Sorted.insertionSort_eq ?_
  have hP : atoms.Pairwise (fun x y : Atom => x.ordinal < y.ordinal) := by
    haveI : IsTrans Atom (fun x y : Atom => x.ordinal < y.ordinal) :=
      ⟨fun a b c h1 h2 => lt_trans h1 h2⟩
    exact List.chain'_iff_pairwise.mp hchain
  have hPk : ((cdsItems ds ad (atoms.map (rowFromAtom tagf))).map Prod.fst).Pairwise
      (fun a b => nullsFirstLe a b = true) := by
    rw [cdsItems_keys ds ad tagf atoms]
    refine List.pairwise_map.mpr ?_
    exact hP.imp (fun h => decide_eq_true (le_of_lt h))
  exact List.pairwise_map.mp hPk

/-- The aggregated string of a group of fully-resolved, ordinal-sorted
rows is the spec's interleaving of texts and boundary delimiters. -/
theorem cdsGroupString_spec (ds : List String) (ad : String)
    (tagf : Nat → List (Option Nat)) (atoms : List Atom)
    (hchain : List.Chain' (fun x y : Atom => x.ordinal < y.ordinal) atoms)
    (hsome : ∀ a ∈ atoms, ∀ t ∈ tagf a.id, t.isSome = true) :
    cdsGroupString ds ad (atoms.map (rowFromAtom tagf)) =
      specJoin ds ad tagf atoms := by
  unfold cdsGroupString
  rw [cdsItems_sorted_eq ds ad tagf atoms hchain]
  exact cdsItems_join ds ad tagf atoms hsome

/-- The aggregated string of the all-null row of an empty chunk is
empty. -/
theorem cdsGroupString_null (ds : List String) (ad : String)
    (ts : List (Option Nat)) :
    cdsGroupString ds ad [⟨none, none, none, ts⟩] = "" := rfl

/-- The per-chunk aggregated value of `ChunkDelimitedStringify` equals
the spec's interleaving of member texts and boundary delimiters, when
every membership row of the chunk joins exactly one atom row, every
configured membership table matches each member atom exactly once, and
the enriched rows already sit in strictly increasing ordinal order. -/
theorem cdsChunkValue_spec (delims : List (String × String)) (ad : String)
    (ch : Chunks) (bcas : List (List (Nat × Nat))) (cid : Nat)
    (H2 : ∀ ca ∈ ch.data.chunk_atoms.filter (fun ca => ca.1 = cid),
      (ch.corpus.atoms.rows.filter (fun x => x.id = ca.2)).length = 1)
    (H3 : ∀ bca ∈ bcas, ∀ ca ∈ ch.data.chunk_atoms.filter (fun ca => ca.1 = cid),
      (bca.filter (fun x => x.2 = ca.2)).length = 1)
    (hchain : List.Chain' (fun x y : Atom => x.ordinal < y.ordinal)
      (ssChunkAtoms ch cid)) :
    cdsChunkValue delims ad ch bcas cid =
      specJoin (delims.map Prod.snd) ad
        (fun aid => bcas.map (fun bca => atomTag bca aid))
        (ssChunkAtoms ch cid) := by
  unfold cdsChunkValue cdsChunkRows
  by_cases hm : (ch.data.chunk_atoms.filter (fun ca => ca.1 = cid)).isEmpty
  · have hbase : cdsBaseRows ch cid = [⟨none, none, none, []⟩] := by
      unfold cdsBaseRows
      rw [if_pos hm]
    have hatoms : ssChunkAtoms ch cid = [] := by
      unfold ssChunkAtoms
      rw [List.isEmpty_iff.mp hm]
      rfl
    rw [hbase, hatoms]
    rw [show ((([⟨none, none, none, []⟩] : List CdsRow)).map (fun x => (cid, x))) =
      [(cid, (⟨none, none, none, []⟩ : CdsRow))] from rfl]
    rw [cdsFold_nullrow cid bcas ⟨none, none, none, []⟩ rfl]
    exact cdsGroupString_null (delims.map Prod.snd) ad
      ([] ++ bcas.map (fun _ => (none : Option Nat)))
  · have hm' : (ch.data.chunk_atoms.filter (fun ca => ca.1 = cid)).isEmpty = false := by
      simpa using hm
    have hbase := cdsBaseRows_eq ch cid hm' H2
    have hss := ssChunkAtoms_eq ch cid H2
    rw [hbase]
    have hinit : (((ch.data.chunk_atoms.filter (fun ca => ca.1 = cid)).map
        (fun ca => (⟨some ca.2, some (joinedAtom ch ca).ordinal,
          some (joinedAtom ch ca).text, []⟩ : CdsRow))).map (fun x => (cid, x))) =
      (ch.data.chunk_atoms.filter (fun ca => ca.1 = cid)).map
        (fun ca => (cid, (⟨some ca.2, some (joinedAtom ch ca).ordinal,
          some (joinedAtom ch ca).text, []⟩ : CdsRow))) := by
      rw [List.map_map]
      rfl
    rw [hinit]
    rw [cdsFold_tags cid (ch.data.chunk_atoms.filter (fun ca => ca.1 = cid)) bcas
      (fun ca => (⟨some ca.2, some (joinedAtom ch ca).ordinal,
        some (joinedAtom ch ca).text, []⟩ : CdsRow))
      (fun ca hca => rfl) H3]
    have hrows : (((ch.data.chunk_atoms.filter (fun ca => ca.1 = cid)).map
        (fun ca => (cid, ({ (⟨some ca.2, some (joinedAtom ch ca).ordinal,
            some (joinedAtom ch ca).text, []⟩ : CdsRow) with
          tags := (⟨some ca.2, some (joinedAtom ch ca).ordinal,
            some (joinedAtom ch ca).text,
            ([] : List (Option Nat))⟩ : CdsRow).tags ++
            bcas.map (fun bca => atomTag bca ca.2) })))).map Prod.snd) =
      (((ch.data.chunk_atoms.filter (fun ca => ca.1 = cid)).map
        (joinedAtom ch)).map
          (rowFromAtom (fun aid => bcas.map (fun bca => atomTag bca aid)))) := by
      rw [List.map_map, List.map_map]
      refine List.map_congr_left ?_
      intro ca hca
      have hid : (joinedAtom ch ca).id = ca.2 := joinedAtom_id ch ca (H2 ca hca)
      show (⟨some ca.2, some (joinedAtom ch ca).ordinal,
          some (joinedAtom ch ca).text,
          [] ++ bcas.map (fun bca => atomTag bca ca.2)⟩ : CdsRow) =
        rowFromAtom (fun aid => bcas.map (fun bca => atomTag bca aid))
          (joinedAtom ch ca)
      simp only [rowFromAtom, hid, List.nil_append]
    rw [hrows, hss]
    refine cdsGroupString_spec _ _ _ _ ?_ ?_
    · rw [← hss]
      exact hchain
    · intro a ha t ht
      obtain ⟨ca, hca, hae⟩ := List.mem_map.mp ha
      have hid : (joinedAtom ch ca).id = ca.2 := joinedAtom_id ch ca (H2 ca hca)
      subst hae
      have ht' : t ∈ bcas.map (fun bca => atomTag bca (joinedAtom ch ca).id) := ht
      rw [hid] at ht'
      obtain ⟨bca, hbca, hte⟩ := List.mem_map.mp ht'
      obtain ⟨cb, hcb⟩ := List.length_eq_one.mp (H3 bca hbca ca hca)
      have hA : atomTag bca ca.2 = some cb.1 := by
        unfold atomTag
        rw [find?_eq_head_filter, hcb]
        rfl
      have ht2 : t = atomTag bca ca.2 := hte.symm
      rw [ht2, hA]
      rfl

/-- Two atoms `a` (ordinal 0) and `b` (ordinal 1), whose chunk lists
its membership rows in *reverse* ordinal order. -/
def exRevCorpus : Corpus :=
  ⟨⟨true, true, [⟨1, 0, "a", []⟩, ⟨2, 1, "b", []⟩]⟩, []⟩

def exRevChunks : Chunks :=
  ⟨exRevCorpus, ⟨[⟨500, []⟩], [(500, 2), (500, 1)]⟩⟩

/-- Counterexample for C9 as stated: the delimiter expression is
evaluated in enriched-frame row order *before* the sort by ordinal, so
when a chunk's membership rows are listed in reverse ordinal order the
atom delimiter attaches to the wrong atom and the "last row" empty
string goes to the frame-last (not ordinal-last) atom: the output is
`"ab?"`, while the claimed per-adjacent-pair rule predicts
`"a" ++ "?" ++ "b"`. -/
theorem c9_counterexample :
    cdsCall [] "?" exRevChunks = .ok ["ab?"] ∧
    "ab?" ≠ "a" ++ "?" ++ "b" := by
  constructor
  · decide
  · decide

/-- **C9 (amended).** `ChunkDelimitedStringify` computes each row's
delimiter from the enriched frame in *frame order* (the `chunk_atoms`
listing order) and only then sorts the concatenated items by ordinal;
the claimed rule — for each pair of ordinal-adjacent atoms, the first
configured `(chunk, delimiter)` pair whose chunk id differs supplies
the delimiter, else the atom delimiter, and the final atom is followed
by the empty string — therefore holds provided each chunk's enriched
rows already sit in strictly increasing ordinal order (and each
membership row joins exactly one atom row, each configured chunk type
resolves and tags each atom exactly once, and chunk ids are pairwise
distinct): then the output is, per chunk, exactly the spec's
interleaving `specJoin` of member texts and boundary delimiters. -/
theorem c9_cds_amended (delims : List (String × String)) (ad : String)
    (ch : Chunks) (bcas : List (List (Nat × Nat)))
    (hbcas : delims.mapM (fun p => (ch.corpus.chunkByName p.1).map
      (fun d => d.chunk_atoms)) = .ok bcas)
    (hT : ch.corpus.atoms.hasText = true)
    (hO : ch.corpus.atoms.hasOrdinal = true)
    (hN : (ch.data.chunks.map (fun r => r.id)).Nodup)
    (H2 : ∀ ca ∈ ch.data.chunk_atoms,
      (ch.corpus.atoms.rows.filter (fun x => x.id = ca.2)).length = 1)
    (H3 : ∀ bca ∈ bcas, ∀ ca ∈ ch.data.chunk_atoms,
      (bca.filter (fun x => x.2 = ca.2)).length = 1)
    (H4 : ∀ r ∈ ch.data.chunks, List.Chain' (fun x y : Atom => x.ordinal < y.ordinal)
      (ssChunkAtoms ch r.id)) :
    cdsCall delims ad ch = .ok (ch.data.chunks.map (fun r =>
      specJoin (delims.map Prod.snd) ad
        (fun aid => bcas.map (fun bca => atomTag bca aid))
        (ssChunkAtoms ch r.id))) := by
  rw [cdsCall_eq_map ch delims ad bcas hbcas hT hO hN]
  refine congrArg Except.ok (List.map_congr_left ?_)
  intro r hr
  refine cdsChunkValue_spec delims ad ch bcas r.id ?_ ?_ (H4 r hr)
  · intro ca hca
    exact H2 ca (List.mem_of_mem_filter hca)
  · intro bca hbca ca hca
    exact H3 bca hbca ca (List.mem_of_mem_filter hca)

/-- Witness for C9 (amended) at the example corpus: the `document`
chunk (atoms in ordinal order) stringified with the `line` delimiter
`"*"` and atom delimiter `"?"`. -/
theorem c9_witness :
    cdsCall [("line", "*")] "?" ⟨exCorpus, exDocData⟩ =
      .ok (exDocData.chunks.map (fun r =>
        specJoin ["*"] "?"
          (fun aid => [exLineData.chunk_atoms].map (fun bca => atomTag bca aid))
          (ssChunkAtoms ⟨exCorpus, exDocData⟩ r.id))) :=
  c9_cds_amended [("line", "*")] "?" ⟨exCorpus, exDocData⟩ [exLineData.chunk_atoms]
    (by decide) rfl rfl (by decide) (by decide) (by decide)
    (by
      intro r hr
      have hr' : r = ⟨301, []⟩ := List.mem_singleton.mp hr
      subst hr'
      show List.Chain' (fun x y : Atom => x.ordinal < y.ordinal)
        [⟨1, 1, "The", [("conf", 96)]⟩, ⟨2, 2, "quick", [("conf", 95)]⟩,
         ⟨3, 3, "fox", [("conf", 94)]⟩]
      refine List.chain'_cons.mpr ⟨by decide, List.chain'_cons.mpr ⟨by decide, ?_⟩⟩
      exact List.chain'_singleton _)

end Retrievall
